import Mathlib

/-!
Verification of the framework execution engine of the AAB repository
(`src/worker/lib/openrouter.ts`): the topological sequencer
(`buildExecutionOrder`), the node executor (`executeNode`), the graph runner
(`executeFramework`) and the LLM gateway cost computation (`callOpenRouter`).

Shallow embedding conventions:
* JavaScript objects used as string-keyed maps (`inDegree`, `adjacency`,
  `nodeOutputs`, ...) are modelled as insertion-ordered association lists
  (`AList`): updating an existing key keeps its position, a new key is
  appended, exactly like JS object property order.
* JS `x || y` on strings (falsy = `undefined`/`""`) is `jsOrStr`,
  on numbers (falsy = `undefined`/`0`) `jsOrNat`; `x ?? y` is `Option.getD`.
* `undefined + 1` / `NaN` arithmetic in the in-degree map is modelled by
  `JNum := Option Int` where `none` is `NaN`; `NaN === 0` is false.
* The user-supplied script of a processor node
  (`new Function(input, customCode)` plus the `String(...)` coercion of its
  result) is abstracted as a semantic function `CodeFn`; a script that throws
  on some input is a `CodeFn` returning `.error msg` there.  An absent or
  empty (falsy) `custom_code` field is `none`.
* `JSON.parse(node.config)` is abstracted by storing the parse outcome in the
  node: `ConfigField.absent` for a falsy config, `.malformed msg` when
  `JSON.parse` would throw `msg`, `.parsed c` for a well-formed config.
* The network (`fetch` inside `callOpenRouter`) is abstracted by an oracle
  `FetchOracle` giving, for each request, either a thrown error, a non-2xx
  body, or the parsed response data.  Costs are embedded in `Rat`; the claims
  only concern the cost expression itself, which the source computes with the
  same formula.
* `Date.now()` wall-clock deltas are irrelevant to every claim; recorded
  latencies are modelled as 0.
* The `while` loop of Kahn's algorithm is given fuel
  `nodes.length + edges.length`: each key of the in-degree map is enqueued at
  most once (its value only decreases and a push happens only when a value
  hits exactly 0), and there are at most `nodes.length + edges.length` keys,
  so the fuel is never exhausted and the fueled loop agrees with the JS loop.
-/

namespace AAB

/-! ## Insertion-ordered string-keyed maps (JS objects) -/

abbrev AList (α : Type) : Type := List (String × α)

def alGet {α : Type} : AList α → String → Option α
  | [], _ => none
  | (k2, v) :: rest, k => if k2 = k then some v else alGet rest k

def alSet {α : Type} : AList α → String → α → AList α
  | [], k, v => [(k, v)]
  | (k2, v2) :: rest, k, v =>
      if k2 = k then (k2, v) :: rest else (k2, v2) :: alSet rest k v

def alKeys {α : Type} (m : AList α) : List String := m.map (·.1)

/-! ## JavaScript value helpers -/

/-- `a || d` for a possibly-undefined JS string: `undefined` and `""` are
falsy. -/
def jsOrStr : Option String → String → String
  | none, d => d
  | some s, d => if s = "" then d else s

/-- `a || d` for a possibly-undefined JS number: `undefined` and `0` are
falsy. -/
def jsOrNat : Option Nat → Nat → Nat
  | none, d => d
  | some n, d => if n = 0 then d else n

/-- A JS number that may be `NaN` (`none`). -/
abbrev JNum : Type := Option Int

/-- `v + 1` on a JS number (`NaN + 1 = NaN`). -/
def jAdd1 : JNum → JNum
  | some n => some (n + 1)
  | none => none

/-- `v - 1` on a JS number (`NaN - 1 = NaN`). -/
def jSub1 : JNum → JNum
  | some n => some (n - 1)
  | none => none

/-- Case-insensitive-ready substring test: does `pat` occur inside `s`? -/
def strContains (s pat : String) : Bool :=
  (List.range (s.data.length + 1)).any (fun i => pat.data.isPrefixOf (s.data.drop i))

/-- Lower-casing (`toLowerCase()`), character by character. -/
def strToLower (s : String) : String := ⟨s.data.map Char.toLower⟩

/-- `n.label?.toLowerCase().includes("output")` with an optional label. -/
def jsLabelHasOutput : Option String → Bool
  | none => false
  | some l => strContains (strToLower l) "output"

/-! ## Data model (`FrameworkGraph`, nodes, edges, results) -/

/-- An edge; `source` stands for the JS `edge.source_id || edge.source` and
`target` for `edge.target_id || edge.target` (the two spellings are an
input-format artifact, both denote the one source/target id). -/
structure Edge where
  source : String
  target : String
deriving DecidableEq, Repr

/-- The semantics of a processor node's user script:
`String(new Function("input", customCode)(input))`, returning `.error msg`
when compiling or running the script throws `msg`. -/
abbrev CodeFn : Type := String → Except String String

/-- The configuration keys the executor reads from a parsed `node.config`. -/
structure NodeConfig where
  model : Option String := none
  temperature : Option Rat := none
  systemPrompt : Option String := none
  maxTokens : Option Nat := none

/-- The raw `node.config` field, abstracted by its `JSON.parse` outcome:
`absent` for a falsy config value, `malformed msg` when `JSON.parse` would
throw `msg`, `parsed c` otherwise. -/
inductive ConfigField where
  | absent
  | malformed (msg : String)
  | parsed (c : NodeConfig)

/-- `const config = node.config ? JSON.parse(node.config) : {}`. -/
def parseConfig : ConfigField → Except String NodeConfig
  | .absent => .ok {}
  | .malformed msg => .error msg
  | .parsed c => .ok c

structure Node where
  id : String
  type : String
  label : Option String
  config : ConfigField
  custom_code : Option CodeFn

structure FrameworkGraph where
  id : String
  name : String
  nodes : List Node
  edges : List Edge

structure ExecutionLog where
  nodeId : String
  input : String
  output : String
  model : Option String
  tokens : Option Nat
  latencyMs : Nat
  error : Option String
deriving DecidableEq, Repr

structure ExecutionResult where
  status : String
  success : Bool
  output : String
  totalTokens : Nat
  totalCost : Rat
  nodeTimings : AList Nat
  nodeOutputs : AList String
  logs : List ExecutionLog

/-- What `executeNode` returns for one node. -/
structure NodeResult where
  output : String
  tokens : Nat
  cost : Rat
  model : Option String
deriving DecidableEq, Repr

/-! ## External LLM gateway (`callOpenRouter`) -/

structure ChatMessage where
  role : String
  content : String
deriving DecidableEq, Repr

structure CallOptions where
  model : Option String := none
  temperature : Option Rat := none
  maxTokens : Option Nat := none
  topP : Option Rat := none

/-- The JSON body sent to the provider endpoint. -/
structure ChatRequest where
  model : String
  messages : List ChatMessage
  temperature : Rat
  max_tokens : Nat
  top_p : Rat

/-- `data.usage` of a 2xx response; every field may be missing (`|| 0`). -/
structure ApiUsageRaw where
  prompt_tokens : Option Nat := none
  completion_tokens : Option Nat := none
  total_tokens : Option Nat := none

/-- The parsed body of a 2xx response; `content` stands for
`data.choices?.[0]?.message?.content`. -/
structure ApiSuccess where
  content : Option String := none
  model : Option String := none
  usage : ApiUsageRaw := {}

/-- Outcome of the `fetch`: a thrown network error, a non-2xx response with
its body text, or a 2xx response with parsed data. -/
inductive FetchOutcome where
  | thrown (msg : String)
  | httpError (body : String)
  | success (data : ApiSuccess)

/-- The environment's response to each HTTP request. -/
abbrev FetchOracle : Type := ChatRequest → FetchOutcome

structure Pricing where
  input : Rat
  output : Rat
deriving DecidableEq, Repr

/-- Static per-model price table (USD per million tokens); every listed model
is a free-tier id with zero rates. -/
def MODEL_PRICING : String → Option Pricing := fun m =>
  if m = "meta-llama/llama-3.3-70b-instruct:free" then some ⟨0, 0⟩
  else if m = "google/gemini-2.5-pro-exp-03-25:free" then some ⟨0, 0⟩
  else if m = "deepseek/deepseek-chat-v3-0324:free" then some ⟨0, 0⟩
  else if m = "deepseek/deepseek-r1-zero:free" then some ⟨0, 0⟩
  else if m = "mistralai/mistral-small-3.1-24b-instruct:free" then some ⟨0, 0⟩
  else if m = "nvidia/llama-3.1-nemotron-nano-8b-v1:free" then some ⟨0, 0⟩
  else if m = "qwen/qwen3-coder-480b-a35b:free" then some ⟨0, 0⟩
  else none

structure UsageOut where
  promptTokens : Nat
  completionTokens : Nat
  totalTokens : Nat
  cost : Rat
deriving DecidableEq, Repr

structure OpenRouterResponse where
  content : String
  model : String
  usage : UsageOut
deriving DecidableEq, Repr

/-- Model resolution `options.model || "meta-llama/llama-3.3-70b-instruct:free"`. -/
def resolvedModel (options : CallOptions) : String :=
  jsOrStr options.model "meta-llama/llama-3.3-70b-instruct:free"

/-- The request body `{model, messages, temperature ?? 0.7, max_tokens ?? 1024,
top_p ?? 1}` sent by `callOpenRouter`. -/
def gatewayRequest (messages : List ChatMessage) (options : CallOptions) : ChatRequest :=
  ⟨resolvedModel options, messages, options.temperature.getD (7 / 10),
    options.maxTokens.getD 1024, options.topP.getD 1⟩

/-- `callOpenRouter(messages, apiKey, options)`; the `fetch` is answered by
`oracle`.  The bearer key plays no computational role and is omitted. -/
def callOpenRouter (oracle : FetchOracle) (messages : List ChatMessage)
    (options : CallOptions) : Except String OpenRouterResponse :=
  let model := resolvedModel options
  match oracle (gatewayRequest messages options) with
  | .thrown msg => .error msg
  | .httpError body => .error ("OpenRouter error: " ++ body)
  | .success data =>
      let pt := data.usage.prompt_tokens.getD 0
      let ct := data.usage.completion_tokens.getD 0
      let pricing := (MODEL_PRICING model).getD ⟨1, 2⟩
      let cost : Rat :=
        (pt : Rat) * pricing.input / 1000000 + (ct : Rat) * pricing.output / 1000000
      .ok ⟨jsOrStr data.content "", jsOrStr data.model model,
        ⟨pt, ct, data.usage.total_tokens.getD 0, cost⟩⟩

/-! ## Topological sequencer (`buildExecutionOrder`) -/

/-- The two init loops: `inDegree[node.id] = 0; adjacency[node.id] = []`. -/
def initMaps (nodes : List Node) : AList JNum × AList (List String) :=
  nodes.foldl (fun st n => (alSet st.1 n.id (some 0), alSet st.2 n.id [])) ([], [])

/-- `inDegree[k]++`: an absent key becomes `NaN` (`undefined + 1`). -/
def alIncr (m : AList JNum) (k : String) : AList JNum :=
  match alGet m k with
  | some v => alSet m k (jAdd1 v)
  | none => alSet m k none

/-- `inDegree[k]--`: an absent key becomes `NaN` (`undefined - 1`). -/
def alDecr (m : AList JNum) (k : String) : AList JNum :=
  match alGet m k with
  | some v => alSet m k (jSub1 v)
  | none => alSet m k none

/-- The edge loop: `adjacency[source].push(target); inDegree[target]++`.
When `source` was never initialized (an edge referencing a nonexistent
node), `adjacency[source].push` throws a TypeError. -/
def addEdges : List Edge → AList JNum × AList (List String) →
    Except String (AList JNum × AList (List String))
  | [], st => .ok st
  | e :: rest, st =>
      match alGet st.2 e.source with
      | none => .error "Cannot read properties of undefined (reading push)"
      | some lst =>
          addEdges rest (alIncr st.1 e.target, alSet st.2 e.source (lst ++ [e.target]))

/-- The inner `for (const neighbor of adjacency[current])` loop:
decrement, then push the neighbor if its in-degree just became `=== 0`. -/
def processNeighbors : List String → AList JNum → List String → AList JNum × List String
  | [], indeg, queue => (indeg, queue)
  | nb :: rest, indeg, queue =>
      let indeg2 := alDecr indeg nb
      let queue2 := if alGet indeg2 nb = some (some 0) then queue ++ [nb] else queue
      processNeighbors rest indeg2 queue2

/-- The `while (queue.length > 0)` loop of Kahn's algorithm, fueled (see the
header: the fuel used by `buildExecutionOrder` is never exhausted). -/
def kahnLoop : Nat → AList JNum → AList (List String) → List String → List String →
    List String
  | 0, _, _, _, order => order
  | fuel + 1, indeg, adj, queue, order =>
      match queue with
      | [] => order
      | current :: rest =>
          let nbs := (alGet adj current).getD []
          let pr := processNeighbors nbs indeg rest
          kahnLoop fuel pr.1 adj pr.2 (order ++ [current])

/-- `buildExecutionOrder(nodes, edges)`: Kahn's algorithm; throws (returns
`.error`) when an edge's source references a nonexistent node. -/
def buildExecutionOrder (nodes : List Node) (edges : List Edge) :
    Except String (List String) :=
  let st0 := initMaps nodes
  match addEdges edges st0 with
  | .error msg => .error msg
  | .ok st =>
      let queue := (alKeys st.1).filter (fun k => alGet st.1 k = some (some 0))
      .ok (kahnLoop (nodes.length + edges.length) st.1 st.2 queue [])

/-! ## Node executor (`executeNode`) -/

/-- The default script body `return input;` used when `customCode` is falsy. -/
def idCode : CodeFn := fun input => .ok input

/-- `executeNode(node, input, apiKey)`; `.error msg` models a thrown
exception escaping to the caller (malformed `node.config`, or an agent call
whose `callOpenRouter` rejected). -/
def executeNode (node : Node) (input : String) (oracle : FetchOracle) :
    Except String NodeResult :=
  match parseConfig node.config with
  | .error msg => .error msg
  | .ok config =>
      if node.type = "input" || node.type = "output" then
        .ok ⟨input, 0, 0, none⟩
      else if node.type = "processor" || (node.type = "default" && node.custom_code.isSome) then
        match (node.custom_code.getD idCode) input with
        | .ok out => .ok ⟨out, 0, 0, none⟩
        | .error msg => .ok ⟨"Error: " ++ msg, 0, 0, none⟩
      else if node.type = "agent" || node.type = "default" then
        let model := jsOrStr config.model "meta-llama/llama-3.3-70b-instruct:free"
        let temperature := config.temperature.getD (7 / 10)
        let systemPrompt := jsOrStr config.systemPrompt "You are a helpful assistant."
        let maxTokens := jsOrNat config.maxTokens 1024
        let messages : List ChatMessage :=
          [⟨"system", systemPrompt⟩, ⟨"user", input⟩]
        match callOpenRouter oracle messages ⟨some model, some temperature, some maxTokens, none⟩ with
        | .error msg => .error msg
        | .ok response =>
            .ok ⟨response.content, response.usage.totalTokens, response.usage.cost,
              some response.model⟩
      else
        .ok ⟨input, 0, 0, none⟩

/-! ## Graph runner (`executeFramework`) -/

/-- The `edgesByTarget` lookup: for each edge, in declaration order, push its
source onto its target's list. -/
def buildEdgesByTarget (edges : List Edge) : AList (List String) :=
  edges.foldl (fun m e => alSet m e.target ((alGet m e.target).getD [] ++ [e.source])) []

/-- Input gathering for one node: zero incoming edges gives the raw test
input; one incoming edge gives `nodeOutputs[source] || testInput`; several
give the outputs (`nodeOutputs[s] || ""`) joined by `"\n---\n"`. -/
def gatherInput (testInput : String) (outputs : AList String)
    (edgesByTarget : AList (List String)) (nodeId : String) : String :=
  match (alGet edgesByTarget nodeId).getD [] with
  | [] => testInput
  | [s] => jsOrStr (alGet outputs s) testInput
  | sources => String.intercalate "\n---\n" (sources.map (fun s => jsOrStr (alGet outputs s) ""))

/-- The mutable per-run accumulators of `executeFramework`. -/
structure RunState where
  nodeTimings : AList Nat
  nodeOutputs : AList String
  totalTokens : Nat
  totalCost : Rat
  logs : List ExecutionLog

def initialRunState : RunState := ⟨[], [], 0, 0, []⟩

/-- One iteration of the `for (const nodeId of executionOrder)` loop: skip
ids with no matching node, gather the input, run the node inside the
per-node `try`/`catch`. -/
def runStep (nodes : List Node) (edgesByTarget : AList (List String))
    (testInput : String) (oracle : FetchOracle) (st : RunState) (nodeId : String) :
    RunState :=
  match nodes.find? (fun n => n.id == nodeId) with
  | none => st
  | some node =>
      let input := gatherInput testInput st.nodeOutputs edgesByTarget nodeId
      match executeNode node input oracle with
      | .ok result =>
          { nodeTimings := alSet st.nodeTimings nodeId 0
            nodeOutputs := alSet st.nodeOutputs nodeId result.output
            totalTokens := st.totalTokens + result.tokens
            totalCost := st.totalCost + result.cost
            logs := st.logs ++ [⟨nodeId, input, result.output, result.model,
              some result.tokens, 0, none⟩] }
      | .error msg =>
          { nodeTimings := alSet st.nodeTimings nodeId 0
            nodeOutputs := alSet st.nodeOutputs nodeId ("Error: " ++ msg)
            totalTokens := st.totalTokens
            totalCost := st.totalCost
            logs := st.logs ++ [⟨nodeId, input, "", none, none, 0, some msg⟩] }

/-- The node filter of the terminal-output selection:
`n.type === "output" || n.label?.toLowerCase().includes("output")`. -/
def outputNodePred (n : Node) : Bool :=
  n.type == "output" || jsLabelHasOutput n.label

/-- `executeFramework(framework, testInput, apiKey, db)`.  Inside the `try`
only `buildExecutionOrder` can throw (the per-node loop has its own
`catch`), so the top-level `catch` always sees the initial accumulators; the
`db` handle is unused by the function body and omitted. -/
def executeFramework (framework : FrameworkGraph) (testInput : String)
    (oracle : FetchOracle) : ExecutionResult :=
  match buildExecutionOrder framework.nodes framework.edges with
  | .error msg =>
      { status := "failed", success := false,
        output := "Execution failed: " ++ msg,
        totalTokens := 0, totalCost := 0,
        nodeTimings := [], nodeOutputs := [], logs := [] }
  | .ok executionOrder =>
      let edgesByTarget := buildEdgesByTarget framework.edges
      let st := executionOrder.foldl
        (runStep framework.nodes edgesByTarget testInput oracle) initialRunState
      let outputNodes := framework.nodes.filter outputNodePred
      let finalOutput : Option String :=
        match outputNodes with
        | n :: _ => alGet st.nodeOutputs n.id
        | [] =>
            match executionOrder.getLast? with
            | some lastId => alGet st.nodeOutputs lastId
            | none => none
      { status := "completed", success := true,
        output := jsOrStr finalOutput "",
        totalTokens := st.totalTokens, totalCost := st.totalCost,
        nodeTimings := st.nodeTimings, nodeOutputs := st.nodeOutputs,
        logs := st.logs }

/-! ## Instrumentation: the executor outcomes of a run (for the aggregation
claim), replaying exactly the runner's loop. -/

/-- The executor outcome of one loop iteration ( `[]` when the id has no
matching node and `executeNode` is never called). -/
def stepOutcome (nodes : List Node) (edgesByTarget : AList (List String))
    (testInput : String) (oracle : FetchOracle) (st : RunState) (nodeId : String) :
    List (Except String NodeResult) :=
  match nodes.find? (fun n => n.id == nodeId) with
  | none => []
  | some node =>
      [executeNode node (gatherInput testInput st.nodeOutputs edgesByTarget nodeId) oracle]

/-- All executor outcomes along the runner's loop. -/
def collectOutcomes (nodes : List Node) (edgesByTarget : AList (List String))
    (testInput : String) (oracle : FetchOracle) :
    List String → RunState → List (Except String NodeResult)
  | [], _ => []
  | nodeId :: rest, st =>
      stepOutcome nodes edgesByTarget testInput oracle st nodeId ++
        collectOutcomes nodes edgesByTarget testInput oracle rest
          (runStep nodes edgesByTarget testInput oracle st nodeId)

/-- The executor outcomes of a whole run (empty when the run failed before
the loop). -/
def runOutcomes (framework : FrameworkGraph) (testInput : String)
    (oracle : FetchOracle) : List (Except String NodeResult) :=
  match buildExecutionOrder framework.nodes framework.edges with
  | .error _ => []
  | .ok executionOrder =>
      collectOutcomes framework.nodes (buildEdgesByTarget framework.edges)
        testInput oracle executionOrder initialRunState

/-- Sum of the token counts of the successful executor outcomes. -/
def sumTokens : List (Except String NodeResult) → Nat
  | [] => 0
  | .ok r :: rest => r.tokens + sumTokens rest
  | .error _ :: rest => sumTokens rest

/-- Sum of the costs of the successful executor outcomes. -/
def sumCost : List (Except String NodeResult) → Rat
  | [] => 0
  | .ok r :: rest => r.cost + sumCost rest
  | .error _ :: rest => sumCost rest

/-! ## Graph-theoretic vocabulary -/

def nodeIds (nodes : List Node) : List String := nodes.map (·.id)

/-- Nonempty edge path: `ReachesPlus edges a b` when there is a path of one
or more edges from `a` to `b`. -/
inductive ReachesPlus (edges : List Edge) : String → String → Prop where
  | single (a b : String) : Edge.mk a b ∈ edges → ReachesPlus edges a b
  | cons (a b c : String) : Edge.mk a b ∈ edges → ReachesPlus edges b c →
      ReachesPlus edges a c

/-- Path of zero or more edges. -/
def Reaches (edges : List Edge) (a b : String) : Prop :=
  a = b ∨ ReachesPlus edges a b

/-- In-degree of `x` counting only edges whose source is not in `P`. -/
def remIn (edges : List Edge) (P : List String) (x : String) : Nat :=
  (edges.filter (fun e => e.target == x && !(P.contains e.source))).length

/-- Successor list of `x` (targets of the edges out of `x`, with
multiplicity, in edge order) — what `adjacency[x]` holds after the build. -/
def outNbrs (edges : List Edge) (x : String) : List String :=
  (edges.filter (fun e => e.source == x)).map (·.target)

/-- Number of parallel edges from `s` to `t`. -/
def countSrcTgt (edges : List Edge) (s t : String) : Nat :=
  (edges.filter (fun e => e.source == s && e.target == t)).length

/-- The value read back right after `inDegree[k]--` as a function of the
value before (`undefined - 1 = NaN`). -/
def jDecRead : Option JNum → JNum
  | some w => jSub1 w
  | none => none

/-- Value of a map entry after `n` successive `--` operations on it. -/
def jSubN : Nat → Option JNum → Option JNum
  | 0, v => v
  | n + 1, v => jSubN n (some (jDecRead v))

/-- Loop invariant of Kahn's algorithm (for graphs with distinct node ids
and edges referencing existing nodes): `order` is the output so far,
`queue` the work queue, `indeg` the current in-degree map. -/
structure KahnInv (nodes : List Node) (edges : List Edge) (indeg : AList JNum)
    (queue order : List String) : Prop where
  nodup : (order ++ queue).Nodup
  subIds : ∀ x ∈ order ++ queue, x ∈ nodeIds nodes
  indegSpec : ∀ x ∈ nodeIds nodes, alGet indeg x = some (some ((remIn edges order x : Int)))
  phantomFree : ∀ x, x ∉ nodeIds nodes → alGet indeg x = none
  closure : ∀ x ∈ nodeIds nodes,
    (x ∈ order ∨ x ∈ queue) ↔ ∀ e ∈ edges, e.target = x → e.source ∈ order
  prec : ∀ e ∈ edges, ∀ pre suf, order = pre ++ e.target :: suf → e.source ∈ pre

/-! ## Concrete graphs used by witnesses and counterexamples -/

/-- Oracle of an environment with no network: every `fetch` throws. -/
def oracleW : FetchOracle := fun _ => .thrown "network disabled"

/-- Oracle answering every request with a 2xx response of 100 prompt and 200
completion tokens. -/
def okOracleW : FetchOracle :=
  fun _ => .success ⟨some "hi", none, ⟨some 100, some 200, some 300⟩⟩

/-- Processor node whose script always throws. -/
def pThrowNode : Node := ⟨"p1", "processor", none, .absent, some (fun _ => .error "boom")⟩

/-- Processor node whose script is the identity. -/
def pIdNode : Node := ⟨"p2", "processor", none, .absent, some (fun s => .ok s)⟩

/-- Processor node whose script returns the empty string. -/
def pEmptyNode : Node := ⟨"p1", "processor", none, .absent, some (fun _ => .ok "")⟩

/-- Processor node whose `config` text is not valid JSON and whose script
always throws. -/
def mcNode : Node :=
  ⟨"m1", "processor", none, .malformed "Unexpected token in JSON", some (fun _ => .error "boom")⟩

/-- One-node framework in which every node execution errors. -/
def fwAllError : FrameworkGraph := ⟨"f1", "f1", [pThrowNode], []⟩

/-- Two-processor chain whose first node's script throws. -/
def fwContinue : FrameworkGraph := ⟨"f4", "f4", [pThrowNode, pIdNode], [⟨"p1", "p2"⟩]⟩

/-- Two-processor chain whose first node outputs the empty string. -/
def fwEmptyOut : FrameworkGraph := ⟨"f7", "f7", [pEmptyNode, pIdNode], [⟨"p1", "p2"⟩]⟩

/-- Non-output-typed node whose label contains "output". -/
def labelNode : Node := ⟨"n1", "processor", some "the output", .absent, some (fun _ => .ok "P")⟩

/-- Node of type `output`. -/
def typeOutNode : Node := ⟨"n2", "output", some "end", .absent, none⟩

/-- Framework where a label-matching node precedes a type-`output` node in
the node array. -/
def fwLabelFirst : FrameworkGraph := ⟨"f6", "f6", [labelNode, typeOutNode], []⟩

def chainNodes : List Node :=
  [⟨"a", "input", none, .absent, none⟩,
   ⟨"b", "processor", none, .absent, some (fun s => .ok s)⟩,
   ⟨"c", "output", none, .absent, none⟩]

def chainEdges : List Edge := [⟨"a", "b"⟩, ⟨"b", "c"⟩]

/-- Ranking witnessing that `chainEdges` is acyclic. -/
def chainRank : String → Nat := fun s => if s = "a" then 0 else if s = "b" then 1 else 2

def cycNodes : List Node :=
  [⟨"a", "processor", none, .absent, none⟩,
   ⟨"b", "processor", none, .absent, none⟩,
   ⟨"c", "processor", none, .absent, none⟩]

def cycEdges : List Edge := [⟨"a", "b"⟩, ⟨"b", "a"⟩]

/-- Nodes of the cycle counterexample: `a <-> b` is a cycle, `c` is clean,
and `d` has one incoming edge from the cycle member `a` and one from the
clean node `c`. -/
def cexNodes : List Node :=
  [⟨"a", "processor", none, .absent, none⟩,
   ⟨"b", "processor", none, .absent, none⟩,
   ⟨"c", "processor", none, .absent, none⟩,
   ⟨"d", "processor", none, .absent, none⟩]

def cexEdges : List Edge := [⟨"a", "b"⟩, ⟨"b", "a"⟩, ⟨"a", "d"⟩, ⟨"c", "d"⟩]

/-! ## Association-list lemmas -/

lemma alGet_alSet_self {α : Type} (m : AList α) (k : String) (v : α) :
    alGet (alSet m k v) k = some v := by
  induction m with
  | nil => simp [alSet, alGet]
  | cons p rest ih =>
      by_cases h : p.1 = k
      · simp [alSet, h, alGet]
      · simp [alSet, h, alGet, ih]

lemma alGet_alSet_ne {α : Type} (m : AList α) {k k2 : String} (v : α) (h : k ≠ k2) :
    alGet (alSet m k v) k2 = alGet m k2 := by
  induction m with
  | nil => simp [alSet, alGet, h]
  | cons p rest ih =>
      by_cases hp : p.1 = k
      · simp [alSet, hp, alGet, h]
      · simp [alSet, hp, alGet, ih]

lemma alKeys_cons {α : Type} (p : String × α) (rest : List (String × α)) :
    alKeys (p :: rest) = p.1 :: alKeys rest := rfl

lemma alGet_eq_none_iff {α : Type} (m : AList α) (k : String) :
    alGet m k = none ↔ k ∉ alKeys m := by
  induction m with
  | nil => simp [alGet, alKeys]
  | cons p rest ih =>
      by_cases hp : p.1 = k
      · simp [alGet, hp, alKeys_cons]
      · simp [alGet, hp, alKeys_cons, ih, Ne.symm hp]

lemma alGet_isSome_iff {α : Type} (m : AList α) (k : String) :
    (alGet m k).isSome ↔ k ∈ alKeys m := by
  rw [Option.isSome_iff_ne_none, ne_eq, alGet_eq_none_iff, not_not]

lemma alKeys_alSet_of_mem {α : Type} (m : AList α) {k : String} (v : α)
    (h : k ∈ alKeys m) : alKeys (alSet m k v) = alKeys m := by
  induction m with
  | nil => simp [alKeys] at h
  | cons p rest ih =>
      by_cases hp : p.1 = k
      · simp [alSet, hp, alKeys_cons]
      · rw [alKeys_cons, List.mem_cons] at h
        rcases h with h | h
        · exact absurd h.symm hp
        · simp [alSet, hp, alKeys_cons, ih h]

lemma alKeys_alSet_of_not_mem {α : Type} (m : AList α) {k : String} (v : α)
    (h : k ∉ alKeys m) : alKeys (alSet m k v) = alKeys m ++ [k] := by
  induction m with
  | nil => simp [alSet, alKeys]
  | cons p rest ih =>
      rw [alKeys_cons, List.mem_cons] at h
      push_neg at h
      simp [alSet, Ne.symm h.1, alKeys_cons, ih h.2]

lemma alGet_alIncr_self (m : AList JNum) (k : String) :
    alGet (alIncr m k) k = some (match alGet m k with
      | some w => jAdd1 w
      | none => none) := by
  unfold alIncr
  cases h : alGet m k with
  | none => simp [alGet_alSet_self]
  | some v => simp [alGet_alSet_self]

lemma alGet_alIncr_ne (m : AList JNum) {k k2 : String} (h : k ≠ k2) :
    alGet (alIncr m k) k2 = alGet m k2 := by
  unfold alIncr
  cases halGet : alGet m k with
  | none => exact alGet_alSet_ne m _ h
  | some v => exact alGet_alSet_ne m _ h

lemma alGet_alDecr_self (m : AList JNum) (k : String) :
    alGet (alDecr m k) k = some (jDecRead (alGet m k)) := by
  unfold alDecr jDecRead
  cases h : alGet m k with
  | none => simp [alGet_alSet_self]
  | some v => simp [alGet_alSet_self]

lemma alGet_alDecr_ne (m : AList JNum) {k k2 : String} (h : k ≠ k2) :
    alGet (alDecr m k) k2 = alGet m k2 := by
  unfold alDecr
  cases halGet : alGet m k with
  | none => exact alGet_alSet_ne m _ h
  | some v => exact alGet_alSet_ne m _ h

lemma alKeys_alIncr_of_mem (m : AList JNum) {k : String} (h : k ∈ alKeys m) :
    alKeys (alIncr m k) = alKeys m := by
  unfold alIncr
  cases halGet : alGet m k with
  | none => exact alKeys_alSet_of_mem m _ h
  | some v => exact alKeys_alSet_of_mem m _ h

/-! ## JS helper lemmas -/

lemma jsOrStr_some_empty_default (s : String) : jsOrStr (some s) "" = s := by
  by_cases h : s = "" <;> simp [jsOrStr, h]

lemma jsOrStr_eq_getD_of_empty_default (v : Option String) :
    jsOrStr v "" = v.getD "" := by
  cases v with
  | none => rfl
  | some s => simp [jsOrStr_some_empty_default]

/-! ## Runner-loop lemmas -/

section RunLemmas

variable (nodes : List Node) (ebt : AList (List String)) (tIn : String) (oracle : FetchOracle)

lemma runStep_skip {nodeId : String} (st : RunState)
    (h : nodes.find? (fun n => n.id == nodeId) = none) :
    runStep nodes ebt tIn oracle st nodeId = st := by
  simp [runStep, h]

lemma runStep_found {nodeId : String} (st : RunState) {node : Node}
    (h : nodes.find? (fun n => n.id == nodeId) = some node) :
    ∃ entry : ExecutionLog,
      (runStep nodes ebt tIn oracle st nodeId).logs = st.logs ++ [entry] ∧
      entry.nodeId = nodeId := by
  cases hex : executeNode node (gatherInput tIn st.nodeOutputs ebt nodeId) oracle with
  | ok r =>
      exact ⟨⟨nodeId, gatherInput tIn st.nodeOutputs ebt nodeId, r.output, r.model,
        some r.tokens, 0, none⟩, by simp [runStep, h, hex], rfl⟩
  | error msg =>
      exact ⟨⟨nodeId, gatherInput tIn st.nodeOutputs ebt nodeId, "", none, none, 0,
        some msg⟩, by simp [runStep, h, hex], rfl⟩

lemma runLoop_logs_extend :
    ∀ (order : List String) (st : RunState),
    ∃ delta, (order.foldl (runStep nodes ebt tIn oracle) st).logs = st.logs ++ delta ∧
      ∀ l ∈ delta, l.nodeId ∈ order := by
  intro order
  induction order with
  | nil => intro st; exact ⟨[], by simp, by simp⟩
  | cons h rest ih =>
      intro st
      obtain ⟨d2, hd2, hmem2⟩ := ih (runStep nodes ebt tIn oracle st h)
      cases hf : nodes.find? (fun n => n.id == h) with
      | none =>
          refine ⟨d2, ?_, ?_⟩
          · rw [List.foldl_cons, hd2, runStep_skip nodes ebt tIn oracle st hf]
          · exact fun l hl => List.mem_cons_of_mem h (hmem2 l hl)
      | some node =>
          obtain ⟨entry, hentry, hid⟩ := runStep_found nodes ebt tIn oracle st hf
          refine ⟨entry :: d2, ?_, ?_⟩
          · rw [List.foldl_cons, hd2, hentry, List.append_assoc]
            rfl
          · intro l hl
            rcases List.mem_cons.mp hl with hl | hl
            · rw [hl, hid]; exact List.mem_cons_self h rest
            · exact List.mem_cons_of_mem h (hmem2 l hl)

lemma runLoop_covers :
    ∀ (order : List String) (st : RunState) (nodeId : String),
    nodeId ∈ order → (nodes.find? (fun n => n.id == nodeId)).isSome →
    ∃ l ∈ (order.foldl (runStep nodes ebt tIn oracle) st).logs, l.nodeId = nodeId := by
  intro order
  induction order with
  | nil => intro st nodeId hmem; exact absurd hmem (List.not_mem_nil nodeId)
  | cons h rest ih =>
      intro st nodeId hmem hfind
      by_cases heq : nodeId = h
      · subst heq
        obtain ⟨node, hf⟩ := Option.isSome_iff_exists.mp hfind
        obtain ⟨entry, hentry, hid⟩ := runStep_found nodes ebt tIn oracle st hf
        obtain ⟨d2, hd2, _⟩ :=
          runLoop_logs_extend nodes ebt tIn oracle rest (runStep nodes ebt tIn oracle st nodeId)
        refine ⟨entry, ?_, hid⟩
        rw [List.foldl_cons, hd2, hentry]
        exact List.mem_append_left d2 (List.mem_append_right st.logs (List.mem_singleton.mpr rfl))
      · rcases List.mem_cons.mp hmem with hcase | hcase
        · exact absurd hcase heq
        · rw [List.foldl_cons]
          exact ih (runStep nodes ebt tIn oracle st h) nodeId hcase hfind

lemma runLoop_totals :
    ∀ (order : List String) (st : RunState),
    (order.foldl (runStep nodes ebt tIn oracle) st).totalTokens =
      st.totalTokens + sumTokens (collectOutcomes nodes ebt tIn oracle order st) ∧
    (order.foldl (runStep nodes ebt tIn oracle) st).totalCost =
      st.totalCost + sumCost (collectOutcomes nodes ebt tIn oracle order st) := by
  intro order
  induction order with
  | nil => intro st; simp [collectOutcomes, sumTokens, sumCost]
  | cons h rest ih =>
      intro st
      obtain ⟨iht, ihc⟩ := ih (runStep nodes ebt tIn oracle st h)
      rw [List.foldl_cons]
      cases hf : nodes.find? (fun n => n.id == h) with
      | none =>
          constructor
          · rw [iht]
            simp [collectOutcomes, stepOutcome, hf, runStep_skip nodes ebt tIn oracle st hf]
          · rw [ihc]
            simp [collectOutcomes, stepOutcome, hf, runStep_skip nodes ebt tIn oracle st hf]
      | some node =>
          cases hex : executeNode node (gatherInput tIn st.nodeOutputs ebt h) oracle with
          | ok r =>
              constructor
              · rw [iht]
                simp only [collectOutcomes, stepOutcome, hf, hex, runStep]
                simp [sumTokens]
                omega
              · rw [ihc]
                simp only [collectOutcomes, stepOutcome, hf, hex, runStep]
                simp [sumCost]
                ring
          | error msg =>
              constructor
              · rw [iht]
                simp only [collectOutcomes, stepOutcome, hf, hex, runStep]
                simp [sumTokens]
              · rw [ihc]
                simp only [collectOutcomes, stepOutcome, hf, hex, runStep]
                simp [sumCost]

end RunLemmas

/-! ## Edge-lookup lemmas -/

lemma buildEdgesByTarget_go :
    ∀ (edges : List Edge) (m : AList (List String)) (t : String),
    alGet (edges.foldl (fun m2 e => alSet m2 e.target ((alGet m2 e.target).getD [] ++ [e.source])) m) t =
      if (edges.filter (fun e => e.target == t)) = [] then alGet m t
      else some ((alGet m t).getD [] ++ ((edges.filter (fun e => e.target == t)).map (·.source))) := by
  intro edges
  induction edges with
  | nil => intro m t; simp
  | cons e rest ih =>
      intro m t
      rw [List.foldl_cons, ih]
      by_cases he : e.target = t
      · subst he
        rw [alGet_alSet_self]
        have hfc : (e :: rest).filter (fun e2 => e2.target == e.target) =
            e :: rest.filter (fun e2 => e2.target == e.target) := by
          simp [List.filter_cons]
        by_cases hr : rest.filter (fun e2 => e2.target == e.target) = []
        · simp [hfc, hr]
        · simp only [hfc, hr, if_neg hr, Option.getD_some]
          have hne : e :: rest.filter (fun e2 => e2.target == e.target) ≠ [] := by
            simp
          rw [if_neg hne]
          simp [List.append_assoc]
      · have hget : alGet (alSet m e.target ((alGet m e.target).getD [] ++ [e.source])) t
            = alGet m t := alGet_alSet_ne m _ he
        have hfc : (e :: rest).filter (fun e2 => e2.target == t) =
            rest.filter (fun e2 => e2.target == t) := by
          simp [List.filter_cons, he]
        rw [hget, hfc]

lemma buildEdgesByTarget_get (edges : List Edge) (t : String) :
    (alGet (buildEdgesByTarget edges) t).getD [] =
      (edges.filter (fun e => e.target == t)).map (·.source) := by
  unfold buildEdgesByTarget
  rw [buildEdgesByTarget_go]
  by_cases h : edges.filter (fun e => e.target == t) = []
  · simp [h, alGet]
  · simp [h, alGet]

/-- Input gathering spelled by the sources of the node's incoming edges, in
edge-declaration order. -/
lemma gatherInput_sources (testInput : String) (outputs : AList String)
    (edges : List Edge) (nodeId : String) :
    gatherInput testInput outputs (buildEdgesByTarget edges) nodeId =
      match (edges.filter (fun e => e.target == nodeId)).map (·.source) with
      | [] => testInput
      | [s] => jsOrStr (alGet outputs s) testInput
      | sources => String.intercalate "\n---\n"
          (sources.map (fun s => jsOrStr (alGet outputs s) "")) := by
  unfold gatherInput
  rw [buildEdgesByTarget_get]

/-! ## Claim C1 -/

/-- C1: for every framework graph and test input, when no run-level
exception occurs before or outside the per-node loop (the execution order
was built successfully), `executeFramework` returns an `ExecutionResult`
with status `completed` and success `true`, whatever happened inside the
per-node loop — node-level failures never set `success` to `false`. -/
theorem c1_success_despite_node_failures :
    ∀ (framework : FrameworkGraph) (testInput : String) (oracle : FetchOracle)
      (order : List String),
    buildExecutionOrder framework.nodes framework.edges = .ok order →
    (executeFramework framework testInput oracle).status = "completed" ∧
    (executeFramework framework testInput oracle).success = true := by
  intro fw tIn oracle order h
  constructor <;> simp [executeFramework, h]

/-- Witness for C1 at a one-node framework whose single node's script
throws: the run still reports `completed` and `success`. -/
theorem c1_witness :
    (executeFramework fwAllError "hi" oracleW).status = "completed" ∧
    (executeFramework fwAllError "hi" oracleW).success = true ∧
    alGet (executeFramework fwAllError "hi" oracleW).nodeOutputs "p1" = some "Error: boom" :=
  ⟨(c1_success_despite_node_failures fwAllError "hi" oracleW ["p1"] rfl).1,
   (c1_success_despite_node_failures fwAllError "hi" oracleW ["p1"] rfl).2,
   rfl⟩

/-! ## Claim C10 -/

/-- C10: `executeFramework` is total at its interface: for every framework
graph (including malformed ones such as edges referencing nonexistent
nodes) and every test input it returns an `ExecutionResult` — either the
completed one, or, when an exception escaped the per-node handler (which
can only happen before the loop, in `buildExecutionOrder`), the failed one
with status `failed`, success `false`, output `"Execution failed: "` plus
the message, and the accumulators as of the failure point (the initial
ones, the loop not having started). -/
theorem c10_total_interface :
    ∀ (framework : FrameworkGraph) (testInput : String) (oracle : FetchOracle),
    ((executeFramework framework testInput oracle).status = "completed" ∧
     (executeFramework framework testInput oracle).success = true) ∨
    (∃ msg, buildExecutionOrder framework.nodes framework.edges = .error msg ∧
      executeFramework framework testInput oracle =
        ⟨"failed", false, "Execution failed: " ++ msg, 0, 0, [], [], []⟩) := by
  intro fw tIn oracle
  cases h : buildExecutionOrder fw.nodes fw.edges with
  | error msg =>
      refine Or.inr ⟨msg, rfl, ?_⟩
      simp [executeFramework, h]
  | ok order =>
      refine Or.inl ⟨?_, ?_⟩ <;> simp [executeFramework, h]

/-! ## Claim C9 -/

/-- C9: for every run, the `totalTokens` and `totalCost` of the returned
`ExecutionResult` equal the sums of the tokens and cost values returned by
the executor for each successfully executed node; nodes whose execution
threw contribute zero to both sums. -/
theorem c9_totals_are_executor_sums :
    ∀ (framework : FrameworkGraph) (testInput : String) (oracle : FetchOracle),
    (executeFramework framework testInput oracle).totalTokens =
      sumTokens (runOutcomes framework testInput oracle) ∧
    (executeFramework framework testInput oracle).totalCost =
      sumCost (runOutcomes framework testInput oracle) := by
  intro fw tIn oracle
  cases h : buildExecutionOrder fw.nodes fw.edges with
  | error msg =>
      constructor <;> simp [executeFramework, h, runOutcomes, sumTokens, sumCost]
  | ok order =>
      obtain ⟨ht, hc⟩ := runLoop_totals fw.nodes (buildEdgesByTarget fw.edges) tIn oracle
        order initialRunState
      constructor
      · simp only [executeFramework, h, runOutcomes]
        rw [ht]
        simp [initialRunState]
      · simp only [executeFramework, h, runOutcomes]
        rw [hc]
        simp [initialRunState]

/-! ## Claim C4 (corrected) -/

/-- C4 counterexample: a processor node whose `config` text is malformed
JSON and whose custom code throws; `executeNode` throws the `JSON.parse`
error to its caller instead of returning an `"Error: ..."` output. -/
theorem c4_counterexample :
    executeNode mcNode "x" oracleW = .error "Unexpected token in JSON" ∧
    ∃ code, mcNode.custom_code = some code ∧ code "x" = .error "boom" :=
  ⟨rfl, ⟨fun _ => .error "boom", rfl, rfl⟩⟩

/-- C4 as amended: for every processor node whose `config` field is absent
or parses (so `JSON.parse` does not throw) and whose custom code throws on
its input, `executeNode` does not throw but returns the output
`"Error: "` plus the exception message with `tokens` 0 and `cost` 0; and
the runner continues executing every node of the order that exists in the
node list, whatever the other nodes did. -/
theorem c4_processor_error_capture :
    (∀ (node : Node) (input : String) (oracle : FetchOracle) (cfg : NodeConfig)
       (code : CodeFn) (msg : String),
       node.type = "processor" → parseConfig node.config = .ok cfg →
       node.custom_code = some code → code input = .error msg →
       executeNode node input oracle = .ok ⟨"Error: " ++ msg, 0, 0, none⟩) ∧
    (∀ (framework : FrameworkGraph) (testInput : String) (oracle : FetchOracle)
       (order : List String) (nodeId : String),
       buildExecutionOrder framework.nodes framework.edges = .ok order →
       nodeId ∈ order → (framework.nodes.find? (fun n => n.id == nodeId)).isSome →
       ∃ l ∈ (executeFramework framework testInput oracle).logs, l.nodeId = nodeId) := by
  constructor
  · intro node input oracle cfg code msg htype hcfg hcode hrun
    unfold executeNode
    rw [hcfg, htype, hcode]
    simp +decide [hrun]
  · intro fw tIn oracle order nodeId horder hmem hfind
    have h := runLoop_covers fw.nodes (buildEdgesByTarget fw.edges) tIn oracle order
      initialRunState nodeId hmem hfind
    simpa [executeFramework, horder] using h

/-- Witness for C4: the always-throwing processor node yields the
`"Error: boom"` output; in the two-node chain whose first node throws, the
second node is still executed (it has a log entry). -/
theorem c4_witness :
    executeNode pThrowNode "x" oracleW = .ok ⟨"Error: boom", 0, 0, none⟩ ∧
    ∃ l ∈ (executeFramework fwContinue "x" oracleW).logs, l.nodeId = "p2" := by
  constructor
  · exact c4_processor_error_capture.1 pThrowNode "x" oracleW {} (fun _ => .error "boom")
      "boom" rfl rfl rfl rfl
  · exact c4_processor_error_capture.2 fwContinue "x" oracleW ["p1", "p2"] "p2" rfl
      (by decide) rfl

/-! ## Claim C5 -/

/-- C5: for every node with two or more incoming edges whose sources all
have recorded outputs, the input passed to its execution is the recorded
outputs of its source nodes joined by `"\n---\n"`, the sources ordered by
the declaration order of the edges; in particular two upstreams producing
`"A"` and `"B"` yield the input `"A\n---\nB"`. -/
theorem c5_fan_in_concatenation :
    (∀ (testInput : String) (outputs : AList String) (edges : List Edge)
       (nodeId s1 s2 : String) (rest : List String),
       (edges.filter (fun e => e.target == nodeId)).map (·.source) = s1 :: s2 :: rest →
       (∀ s ∈ s1 :: s2 :: rest, (alGet outputs s).isSome) →
       gatherInput testInput outputs (buildEdgesByTarget edges) nodeId =
         String.intercalate "\n---\n"
           ((s1 :: s2 :: rest).map (fun s => (alGet outputs s).getD ""))) ∧
    gatherInput "T" [("u1", "A"), ("u2", "B")]
      (buildEdgesByTarget [⟨"u1", "d"⟩, ⟨"u2", "d"⟩]) "d" = "A\n---\nB" := by
  constructor
  · intro tIn outputs edges nodeId s1 s2 rest hmap hrec
    rw [gatherInput_sources, hmap]
    have : ∀ s ∈ s1 :: s2 :: rest,
        jsOrStr (alGet outputs s) "" = (alGet outputs s).getD "" := by
      intro s hs
      exact jsOrStr_eq_getD_of_empty_default (alGet outputs s)
    simp only [List.map_congr_left this]
  · rfl

/-- Witness for C5 at the concrete two-upstream fan-in. -/
theorem c5_witness :
    gatherInput "T" [("u1", "A"), ("u2", "B")]
        (buildEdgesByTarget [⟨"u1", "d"⟩, ⟨"u2", "d"⟩]) "d" =
      String.intercalate "\n---\n"
        (["u1", "u2"].map (fun s => (alGet [("u1", "A"), ("u2", "B")] s).getD "")) :=
  c5_fan_in_concatenation.1 "T" [("u1", "A"), ("u2", "B")] [⟨"u1", "d"⟩, ⟨"u2", "d"⟩]
    "d" "u1" "u2" [] rfl (by decide)

/-! ## Claim C7 (corrected) -/

/-- C7 counterexample: in a two-processor chain whose first node's recorded
output is the empty string, the second node (exactly one incoming edge)
receives the raw test input `"T"` — not the recorded output `""` — because
of the falsy fallback `nodeOutputs[source] || testInput`. -/
theorem c7_counterexample :
    alGet (executeFramework fwEmptyOut "T" oracleW).nodeOutputs "p1" = some "" ∧
    (executeFramework fwEmptyOut "T" oracleW).logs =
      [⟨"p1", "T", "", none, some 0, 0, none⟩, ⟨"p2", "T", "T", none, some 0, 0, none⟩] ∧
    ("T" : String) ≠ "" :=
  ⟨rfl, rfl, by decide⟩

/-- C7 as amended: a node with zero incoming edges receives the raw
`testInput`; a node with exactly one incoming edge receives the recorded
output of that edge's source when it is recorded and non-empty, and the
raw `testInput` otherwise (the source reads `nodeOutputs[source] ||
testInput`). -/
theorem c7_single_edge_input :
    ∀ (testInput : String) (outputs : AList String) (edges : List Edge) (nodeId : String),
    ((edges.filter (fun e => e.target == nodeId) = []) →
      gatherInput testInput outputs (buildEdgesByTarget edges) nodeId = testInput) ∧
    (∀ s, (edges.filter (fun e => e.target == nodeId)).map (·.source) = [s] →
      gatherInput testInput outputs (buildEdgesByTarget edges) nodeId =
        match alGet outputs s with
        | some o => if o = "" then testInput else o
        | none => testInput) := by
  intro tIn outputs edges nodeId
  constructor
  · intro hempty
    rw [gatherInput_sources, hempty]
    simp
  · intro s hmap
    rw [gatherInput_sources, hmap]
    cases h : alGet outputs s with
    | none => simp [jsOrStr, h]
    | some o => simp [jsOrStr, h]

/-- Witness for C7: with no incoming edges the input is the test input;
with one incoming edge from a source whose recorded output is `""`, the
input is again the test input. -/
theorem c7_witness :
    gatherInput "T" [] (buildEdgesByTarget []) "x" = "T" ∧
    gatherInput "T" [("u", "")] (buildEdgesByTarget [⟨"u", "d"⟩]) "d" = "T" := by
  constructor
  · exact (c7_single_edge_input "T" [] [] "x").1 rfl
  · have h := (c7_single_edge_input "T" [("u", "")] [⟨"u", "d"⟩] "d").2 "u" rfl
    rw [h]
    rfl

/-! ## Claim C8 -/

/-- C8: for every gateway call that got a 2xx response, the computed cost
follows the static price table: a model id in the table with zero rates
(every free-tier id) costs exactly 0 whatever the token counts; a model id
in the table costs `promptTokens * inputRate / 1e6 + completionTokens *
outputRate / 1e6`; a model id absent from the table is charged the default
rates (input 1, output 2 per million tokens). -/
theorem c8_gateway_cost :
    ∀ (oracle : FetchOracle) (messages : List ChatMessage) (options : CallOptions)
      (data : ApiSuccess),
    oracle (gatewayRequest messages options) = .success data →
    ∃ resp, callOpenRouter oracle messages options = .ok resp ∧
      resp.usage.promptTokens = data.usage.prompt_tokens.getD 0 ∧
      resp.usage.completionTokens = data.usage.completion_tokens.getD 0 ∧
      (∀ p, MODEL_PRICING (resolvedModel options) = some p → p.input = 0 → p.output = 0 →
        resp.usage.cost = 0) ∧
      (∀ p, MODEL_PRICING (resolvedModel options) = some p →
        resp.usage.cost = (resp.usage.promptTokens : Rat) * p.input / 1000000 +
          (resp.usage.completionTokens : Rat) * p.output / 1000000) ∧
      (MODEL_PRICING (resolvedModel options) = none →
        resp.usage.cost = (resp.usage.promptTokens : Rat) * 1 / 1000000 +
          (resp.usage.completionTokens : Rat) * 2 / 1000000) := by
  intro oracle messages options data hresp
  unfold callOpenRouter
  rw [hresp]
  refine ⟨_, rfl, rfl, rfl, ?_, ?_, ?_⟩
  · intro p hp hin hout
    simp [hp, hin, hout]
  · intro p hp
    simp [hp]
  · intro hnone
    simp [hnone]

/-- Witness for C8: with a 2xx response of 100 prompt and 200 completion
tokens, the free llama model costs 0 and an unknown model id costs
`100/1e6 + 400/1e6 = 1/2000`. -/
theorem c8_witness :
    (∃ resp, callOpenRouter okOracleW []
        ⟨some "meta-llama/llama-3.3-70b-instruct:free", none, none, none⟩ = .ok resp ∧
      resp.usage.cost = 0) ∧
    (∃ resp, callOpenRouter okOracleW [] ⟨some "unknown-model", none, none, none⟩ = .ok resp ∧
      resp.usage.cost = 1 / 2000) := by
  constructor
  · obtain ⟨resp, hcall, hpt, hct, hfree, hknown, hunk⟩ := c8_gateway_cost okOracleW []
      ⟨some "meta-llama/llama-3.3-70b-instruct:free", none, none, none⟩
      ⟨some "hi", none, ⟨some 100, some 200, some 300⟩⟩ rfl
    exact ⟨resp, hcall, hfree ⟨0, 0⟩ rfl rfl rfl⟩
  · obtain ⟨resp, hcall, hpt, hct, hfree, hknown, hunk⟩ := c8_gateway_cost okOracleW []
      ⟨some "unknown-model", none, none, none⟩
      ⟨some "hi", none, ⟨some 100, some 200, some 300⟩⟩ rfl
    refine ⟨resp, hcall, ?_⟩
    rw [hunk rfl, hpt, hct]
    norm_num

/-! ## Claim C6 (corrected) -/

lemma filter_head_eq_find {α : Type} (l : List α) (p : α → Bool) :
    (l.filter p).head? = l.find? p := by
  induction l with
  | nil => rfl
  | cons a rest ih =>
      by_cases h : p a <;> simp [List.filter_cons, List.find?_cons, h, ih]

/-- C6 counterexample: in a framework whose node array lists first a
non-output-typed node with "output" in its label and then a node of type
`output`, the run's terminal output is the label-matching node's output
`"P"`, not the type-`output` node's output `"T"` — the code does not prefer
nodes of type `output`. -/
theorem c6_counterexample :
    (executeFramework fwLabelFirst "T" oracleW).output = "P" ∧
    alGet (executeFramework fwLabelFirst "T" oracleW).nodeOutputs "n2" = some "T" ∧
    typeOutNode.type = "output" ∧ labelNode.type ≠ "output" ∧ ("P" : String) ≠ "T" :=
  ⟨by decide, by decide, rfl, by decide, by decide⟩

/-- C6 as amended: the terminal output of a completed run is the recorded
output of the first node in the node array satisfying `type = "output"` or
`label` containing `"output"` case-insensitively — with no preference
between the two conditions; when no node satisfies either, the output of
the last node in execution order is used (empty string when undefined). -/
theorem c6_output_selection :
    ∀ (framework : FrameworkGraph) (testInput : String) (oracle : FetchOracle)
      (order : List String),
    buildExecutionOrder framework.nodes framework.edges = .ok order →
    (executeFramework framework testInput oracle).output =
      jsOrStr
        (match framework.nodes.find? outputNodePred with
         | some n => alGet (executeFramework framework testInput oracle).nodeOutputs n.id
         | none =>
             match order.getLast? with
             | some lastId =>
                 alGet (executeFramework framework testInput oracle).nodeOutputs lastId
             | none => none) "" := by
  intro fw tIn oracle order horder
  rw [← filter_head_eq_find]
  cases hf : (fw.nodes.filter outputNodePred) with
  | nil => simp [executeFramework, horder, hf]
  | cons n rest => simp [executeFramework, horder, hf]

/-! ## Counting lemmas for Kahn's algorithm -/

lemma filter_length_mono {α : Type} (l : List α) (p q : α → Bool)
    (h : ∀ a ∈ l, p a = true → q a = true) :
    (l.filter p).length ≤ (l.filter q).length := by
  induction l with
  | nil => simp
  | cons a rest ih =>
      have ih2 := ih (fun b hb => h b (List.mem_cons_of_mem a hb))
      rw [List.filter_cons, List.filter_cons]
      by_cases hp : p a = true
      · rw [if_pos hp, if_pos (h a (List.mem_cons_self a rest) hp)]
        simpa using ih2
      · rw [if_neg hp]
        by_cases hq : q a = true
        · rw [if_pos hq]
          exact ih2.trans (by simp)
        · rw [if_neg hq]
          exact ih2

lemma remIn_nil_eq (edges : List Edge) (x : String) :
    remIn edges [] x = (edges.filter (fun e => e.target == x)).length := by
  unfold remIn
  congr 1
  apply List.filter_congr
  intro e _
  simp [List.contains]

lemma remIn_eq_zero_iff (edges : List Edge) (P : List String) (x : String) :
    remIn edges P x = 0 ↔ ∀ e ∈ edges, e.target = x → e.source ∈ P := by
  unfold remIn
  rw [List.length_eq_zero, List.filter_eq_nil_iff]
  constructor
  · intro h e he ht
    have := h e he
    simp [ht] at this
    exact this
  · intro h e he
    by_cases ht : e.target = x
    · simp [ht, h e he ht]
    · simp [ht]

lemma remIn_append_single (edges : List Edge) (P : List String) (current x : String)
    (hcur : current ∉ P) :
    remIn edges P x = remIn edges (P ++ [current]) x + countSrcTgt edges current x := by
  induction edges with
  | nil => rfl
  | cons e rest ih =>
      unfold remIn countSrcTgt at ih ⊢
      rw [List.filter_cons, List.filter_cons, List.filter_cons]
      by_cases ht : e.target = x
      · by_cases hsP : e.source ∈ P
        · have hsc : e.source ≠ current := fun h => hcur (h ▸ hsP)
          have h1 : (e.target == x && !(P.contains e.source)) = false := by
            simp [List.contains, hsP]
          have h2 : (e.target == x && !((P ++ [current]).contains e.source)) = false := by
            simp [List.contains, hsP]
          have h3 : (e.source == current && e.target == x) = false := by simp [hsc]
          rw [h1, h2, h3]
          simpa using ih
        · by_cases hsc : e.source = current
          · have h1 : (e.target == x && !(P.contains e.source)) = true := by
              simp [ht, List.contains, hsP]
            have h2 : (e.target == x && !((P ++ [current]).contains e.source)) = false := by
              simp [List.contains, hsc]
            have h3 : (e.source == current && e.target == x) = true := by simp [hsc, ht]
            rw [h1, h2, h3]
            simp only [if_true, List.length_cons]
            rw [if_neg (by simp)]
            omega
          · have hsQ : e.source ∉ P ++ [current] := by
              intro h
              rcases List.mem_append.mp h with h | h
              · exact hsP h
              · exact hsc (List.mem_singleton.mp h)
            have h1 : (e.target == x && !(P.contains e.source)) = true := by
              simp [ht, List.contains, hsP]
            have h2 : (e.target == x && !((P ++ [current]).contains e.source)) = true := by
              simp only [List.contains] at hsQ ⊢
              simp [ht, hsQ]
            have h3 : (e.source == current && e.target == x) = false := by simp [hsc]
            rw [h1, h2, h3]
            simp only [if_true, List.length_cons]
            rw [if_neg (by simp)]
            omega
      · have h1 : (e.target == x && !(P.contains e.source)) = false := by simp [ht]
        have h2 : (e.target == x && !((P ++ [current]).contains e.source)) = false := by
          simp [ht]
        have h3 : (e.source == current && e.target == x) = false := by simp [ht]
        rw [h1, h2, h3]
        simpa using ih

lemma remIn_ge_countSrcTgt (edges : List Edge) (P : List String) (current x : String)
    (hcur : current ∉ P) :
    countSrcTgt edges current x ≤ remIn edges P x := by
  rw [remIn_append_single edges P current x hcur]
  omega

lemma outNbrs_count (edges : List Edge) (current x : String) :
    (outNbrs edges current).count x = countSrcTgt edges current x := by
  induction edges with
  | nil => rfl
  | cons e rest ih =>
      unfold outNbrs countSrcTgt at ih ⊢
      rw [List.filter_cons, List.filter_cons]
      by_cases hs : e.source = current
      · by_cases ht : e.target = x
        · simp [hs, ht, List.count_cons]
          omega
        · simp [hs, ht, List.count_cons]
          exact ih
      · simp [hs]
        exact ih

lemma outNbrs_mem (edges : List Edge) (current nb : String) :
    nb ∈ outNbrs edges current ↔ ∃ e ∈ edges, e.source = current ∧ e.target = nb := by
  unfold outNbrs
  simp only [List.mem_map, List.mem_filter, beq_iff_eq]
  constructor
  · rintro ⟨e, ⟨he, hs⟩, ht⟩
    exact ⟨e, he, hs, ht⟩
  · rintro ⟨e, he, hs, ht⟩
    exact ⟨e, ⟨he, hs⟩, ht⟩

/-! ## jSubN lemmas -/

lemma jSubN_int : ∀ (n : Nat) (k : Int), jSubN n (some (some k)) = some (some (k - n)) := by
  intro n
  induction n with
  | zero => intro k; simp [jSubN]
  | succ m ih =>
      intro k
      show jSubN m (some (jDecRead (some (some k)))) = some (some (k - (m + 1)))
      have : jDecRead (some (some k)) = some (k - 1) := rfl
      rw [this, ih (k - 1)]
      congr 2
      omega

lemma jSubN_some_none : ∀ n : Nat, jSubN n (some none) = some none := by
  intro n
  induction n with
  | zero => rfl
  | succ m ih => exact ih

lemma jSubN_none : ∀ n : Nat, jSubN n none = if n = 0 then none else some none := by
  intro n
  cases n with
  | zero => rfl
  | succ m =>
      show jSubN m (some (jDecRead none)) = _
      simp [jDecRead, jSubN_some_none]

/-! ## processNeighbors lemmas -/

lemma processNeighbors_get :
    ∀ (L : List String) (indeg : AList JNum) (q : List String) (x : String),
    alGet (processNeighbors L indeg q).1 x = jSubN (L.count x) (alGet indeg x) := by
  intro L
  induction L with
  | nil => intro indeg q x; rfl
  | cons nb rest ih =>
      intro indeg q x
      show alGet (processNeighbors rest (alDecr indeg nb) _).1 x = _
      rw [ih]
      by_cases hx : nb = x
      · subst hx
        rw [alGet_alDecr_self, List.count_cons_self]
        rfl
      · rw [alGet_alDecr_ne indeg hx, List.count_cons_of_ne (fun hh => hx hh.symm)]

lemma processNeighbors_queue :
    ∀ (L : List String) (indeg : AList JNum) (q : List String),
    ∃ pushes, (processNeighbors L indeg q).2 = q ++ pushes ∧ pushes.Nodup ∧
      ∀ y, y ∈ pushes ↔
        ∃ n : Int, alGet indeg y = some (some n) ∧ 1 ≤ n ∧ n ≤ (L.count y : Int) := by
  intro L
  induction L with
  | nil =>
      intro indeg q
      refine ⟨[], by simp [processNeighbors], List.nodup_nil, ?_⟩
      intro y
      simp only [List.not_mem_nil, false_iff, List.count_nil]
      rintro ⟨n, _, h1, h2⟩
      omega
  | cons nb rest ih =>
      intro indeg q
      obtain ⟨pushes2, hq, hnd, hmem⟩ :=
        ih (alDecr indeg nb)
          (if alGet (alDecr indeg nb) nb = some (some 0) then q ++ [nb] else q)
      have hself := alGet_alDecr_self indeg nb
      by_cases hpush : alGet (alDecr indeg nb) nb = some (some 0)
      · -- the decrement hit zero: nb was pushed
        have hv : alGet indeg nb = some (some 1) := by
          rw [hself] at hpush
          cases hv0 : alGet indeg nb with
          | none => rw [hv0] at hpush; simp [jDecRead] at hpush
          | some w =>
              cases w with
              | none => rw [hv0] at hpush; simp [jDecRead, jSub1] at hpush
              | some k =>
                  rw [hv0] at hpush
                  simp [jDecRead, jSub1] at hpush
                  have hk : k = 1 := by omega
                  rw [hk]
        have hnbp2 : nb ∉ pushes2 := by
          intro hcon
          obtain ⟨m, hm, hm1, _⟩ := (hmem nb).mp hcon
          rw [hpush] at hm
          have : m = 0 := by
            have := Option.some.inj (Option.some.inj hm)
            omega
          omega
        refine ⟨nb :: pushes2, ?_, List.nodup_cons.mpr ⟨hnbp2, hnd⟩, ?_⟩
        · show (processNeighbors rest (alDecr indeg nb) _).2 = _
          rw [hq, if_pos hpush, List.append_assoc]
          rfl
        · intro y
          by_cases hy : y = nb
          · subst hy
            simp only [List.mem_cons, true_or, true_iff]
            refine ⟨1, hv, le_refl 1, ?_⟩
            rw [List.count_cons_self]
            have : (0 : Int) ≤ (rest.count y : Int) := Int.ofNat_nonneg _
            omega
          · rw [List.mem_cons]
            simp only [hy, false_or]
            rw [hmem y, alGet_alDecr_ne indeg (fun h => hy h.symm),
              List.count_cons_of_ne hy]
      · -- no push for nb at this step
        refine ⟨pushes2, ?_, hnd, ?_⟩
        · show (processNeighbors rest (alDecr indeg nb) _).2 = _
          rw [hq, if_neg hpush]
        · intro y
          by_cases hy : y = nb
          · subst hy
            rw [hmem y, List.count_cons_self]
            cases hv0 : alGet indeg y with
            | none =>
                rw [hself, hv0]
                simp only [jDecRead]
                constructor
                · rintro ⟨n, hn, _, _⟩
                  exact absurd hn (by simp)
                · rintro ⟨n, hn, _, _⟩
                  exact absurd hn (by simp)
            | some w =>
                cases w with
                | none =>
                    rw [hself, hv0]
                    simp only [jDecRead, jSub1]
                    constructor
                    · rintro ⟨n, hn, _, _⟩
                      exact absurd hn (by simp)
                    · rintro ⟨n, hn, _, _⟩
                      exact absurd hn (by simp)
                | some k =>
                    have hk1 : k ≠ 1 := by
                      intro hk
                      apply hpush
                      rw [hself, hv0, hk]
                      rfl
                    rw [hself, hv0]
                    simp only [jDecRead, jSub1]
                    constructor
                    · rintro ⟨n, hn, h1, h2⟩
                      have hnk : n = k - 1 := by
                        have := Option.some.inj (Option.some.inj hn)
                        omega
                      refine ⟨k, rfl, by omega, by omega⟩
                    · rintro ⟨n, hn, h1, h2⟩
                      have hnk : n = k := by
                        have := Option.some.inj (Option.some.inj hn)
                        omega
                      refine ⟨k - 1, rfl, by omega, by omega⟩
          · rw [hmem y, alGet_alDecr_ne indeg (fun h => hy h.symm),
              List.count_cons_of_ne hy]

/-! ## Kahn loop invariant preservation -/

lemma kahn_step (nodes : List Node) (edges : List Edge)
    (hvalid : ∀ e ∈ edges, e.source ∈ nodeIds nodes ∧ e.target ∈ nodeIds nodes)
    (indeg : AList JNum) (current : String) (rest order : List String)
    (hinv : KahnInv nodes edges indeg (current :: rest) order) :
    KahnInv nodes edges (processNeighbors (outNbrs edges current) indeg rest).1
      (processNeighbors (outNbrs edges current) indeg rest).2 (order ++ [current]) := by
  obtain ⟨hnd, hsub, hspec, hphan, hclos, hprec⟩ := hinv
  have hcur_ids : current ∈ nodeIds nodes := hsub current (by simp)
  have hdisj := (List.nodup_append.mp hnd).2.2
  have hcur_not_order : current ∉ order :=
    fun h => hdisj h (List.mem_cons_self current rest)
  have hq_nodup : (current :: rest).Nodup := (List.nodup_append.mp hnd).2.1
  have hcur_srcs : ∀ e ∈ edges, e.target = current → e.source ∈ order :=
    (hclos current hcur_ids).mp (Or.inr (List.mem_cons_self current rest))
  obtain ⟨pushes, hq2, hpnd, hpmem⟩ :=
    processNeighbors_queue (outNbrs edges current) indeg rest
  have hL_ids : ∀ nb ∈ outNbrs edges current, nb ∈ nodeIds nodes := by
    intro nb hnb
    obtain ⟨e, he, hs, ht⟩ := (outNbrs_mem edges current nb).mp hnb
    exact ht ▸ (hvalid e he).2
  have hpush_char : ∀ y ∈ pushes, y ∈ nodeIds nodes ∧
      1 ≤ remIn edges order y ∧ remIn edges order y ≤ countSrcTgt edges current y := by
    intro y hy
    obtain ⟨n, hn, h1, h2⟩ := (hpmem y).mp hy
    have hy_ids : y ∈ nodeIds nodes := by
      by_contra hcon
      rw [hphan y hcon] at hn
      exact absurd hn (by simp)
    have hrem := hspec y hy_ids
    rw [hrem] at hn
    have hn_eq : n = (remIn edges order y : Int) := by
      have := Option.some.inj (Option.some.inj hn)
      omega
    rw [outNbrs_count] at h2
    exact ⟨hy_ids, by omega, by omega⟩
  have hpush_fresh : ∀ y ∈ pushes, y ∉ order ++ current :: rest := by
    intro y hy hcon
    obtain ⟨hy_ids, h1, _⟩ := hpush_char y hy
    have hall : ∀ e ∈ edges, e.target = y → e.source ∈ order := by
      rcases List.mem_append.mp hcon with h | h
      · exact (hclos y hy_ids).mp (Or.inl h)
      · exact (hclos y hy_ids).mp (Or.inr h)
    have h0 : remIn edges order y = 0 := (remIn_eq_zero_iff edges order y).mpr hall
    omega
  constructor
  -- nodup
  case nodup =>
      rw [hq2]
      have hrearr : (order ++ [current]) ++ (rest ++ pushes) =
          (order ++ current :: rest) ++ pushes := by simp
      rw [hrearr, List.nodup_append]
      exact ⟨hnd, hpnd, fun y hy1 hy2 => hpush_fresh y hy2 hy1⟩
  -- subIds
  case subIds =>
      intro x hx
      rw [hq2] at hx
      rcases List.mem_append.mp hx with hx | hx
      · rcases List.mem_append.mp hx with hx | hx
        · exact hsub x (List.mem_append_left _ hx)
        · rw [List.mem_singleton.mp hx]; exact hcur_ids
      · rcases List.mem_append.mp hx with hx | hx
        · exact hsub x (List.mem_append_right _ (List.mem_cons_of_mem current hx))
        · exact (hpush_char x hx).1
  -- indegSpec
  case indegSpec =>
      intro x hx
      have hsplit := remIn_append_single edges order current x hcur_not_order
      rw [processNeighbors_get, hspec x hx, jSubN_int, outNbrs_count]
      congr 2
      omega
  -- phantomFree
  case phantomFree =>
      intro x hx
      have hc0 : List.count x (outNbrs edges current) = 0 :=
        List.count_eq_zero.mpr (fun h => hx (hL_ids x h))
      rw [processNeighbors_get, hphan x hx, hc0]
      rfl
  -- closure
  case closure =>
      intro x hx
      constructor
      · intro hmem2
        rcases hmem2 with hx2 | hx2
        · rcases List.mem_append.mp hx2 with hx2 | hx2
          · exact fun e he ht =>
              List.mem_append_left _ ((hclos x hx).mp (Or.inl hx2) e he ht)
          · rw [List.mem_singleton.mp hx2]
            exact fun e he ht => List.mem_append_left _ (hcur_srcs e he ht)
        · rw [hq2] at hx2
          rcases List.mem_append.mp hx2 with hx2 | hx2
          · exact fun e he ht =>
              List.mem_append_left _
                ((hclos x hx).mp (Or.inr (List.mem_cons_of_mem current hx2)) e he ht)
          · obtain ⟨_, h1, h2⟩ := hpush_char x hx2
            have hge := remIn_ge_countSrcTgt edges order current x hcur_not_order
            have hsplit := remIn_append_single edges order current x hcur_not_order
            have hrem0 : remIn edges (order ++ [current]) x = 0 := by omega
            exact (remIn_eq_zero_iff edges (order ++ [current]) x).mp hrem0
      · intro hsrcs
        by_cases hall : ∀ e ∈ edges, e.target = x → e.source ∈ order
        · rcases (hclos x hx).mpr hall with h | h
          · exact Or.inl (List.mem_append_left _ h)
          · rcases List.mem_cons.mp h with h | h
            · exact Or.inl (List.mem_append_right _ (List.mem_singleton.mpr h))
            · refine Or.inr ?_
              rw [hq2]
              exact List.mem_append_left _ h
        · push_neg at hall
          obtain ⟨e0, he0, ht0, hs0⟩ := hall
          refine Or.inr ?_
          rw [hq2]
          refine List.mem_append_right _ ?_
          rw [hpmem x]
          refine ⟨(remIn edges order x : Int), hspec x hx, ?_, ?_⟩
          · have hne : remIn edges order x ≠ 0 := by
              intro h0
              exact hs0 ((remIn_eq_zero_iff edges order x).mp h0 e0 he0 ht0)
            omega
          · rw [outNbrs_count]
            have hle : remIn edges order x ≤ countSrcTgt edges current x := by
              unfold remIn countSrcTgt
              apply filter_length_mono
              intro e he hp
              simp only [Bool.and_eq_true, beq_iff_eq] at hp
              obtain ⟨hpt, hps⟩ := hp
              have hps2 : e.source ∉ order := by simpa using hps
              have hsc : e.source = current := by
                rcases List.mem_append.mp (hsrcs e he hpt) with h | h
                · exact absurd h hps2
                · exact List.mem_singleton.mp h
              simp [hsc, hpt]
            omega
  -- prec
  case prec =>
      intro e he pre suf hdecomp
      rcases List.eq_nil_or_concat suf with hsuf | ⟨suf2, z, hsuf⟩
      · subst hsuf
        obtain ⟨h3, h4⟩ := List.append_inj' hdecomp rfl
        have hct : e.target = current := by
          injection h4 with h5 _
          exact h5.symm
        rw [← h3]
        exact hcur_srcs e he hct
      · subst hsuf
        have hdecomp2 : order ++ [current] = (pre ++ e.target :: suf2) ++ [z] := by
          rw [hdecomp]
          simp
        obtain ⟨h3, _⟩ := List.append_inj' hdecomp2 rfl
        exact hprec e he pre suf2 h3

lemma nodup_subset_length_le (l1 l2 : List String) (h1 : l1.Nodup)
    (h2 : ∀ x ∈ l1, x ∈ l2) : l1.length ≤ l2.length := by
  calc l1.length = l1.toFinset.card := (List.toFinset_card_of_nodup h1).symm
    _ ≤ l2.toFinset.card := Finset.card_le_card (by
        intro a ha
        rw [List.mem_toFinset] at ha ⊢
        exact h2 a ha)
    _ ≤ l2.length := l2.toFinset_card_le

/-- End state of the loop: with an empty queue the invariant yields the
output characterization. -/
lemma kahn_end (nodes : List Node) (edges : List Edge) (indeg : AList JNum)
    (order : List String) (hinv : KahnInv nodes edges indeg [] order) :
    order.Nodup ∧ (∀ x ∈ order, x ∈ nodeIds nodes) ∧
    (∀ x ∈ nodeIds nodes, (x ∈ order ↔ ∀ e ∈ edges, e.target = x → e.source ∈ order)) ∧
    (∀ e ∈ edges, ∀ pre suf, order = pre ++ e.target :: suf → e.source ∈ pre) := by
  refine ⟨by simpa using hinv.nodup, fun x hx => hinv.subIds x (by simpa using hx),
    ?_, hinv.prec⟩
  intro x hx
  have h := hinv.closure x hx
  simpa using h

lemma kahn_master (nodes : List Node) (edges : List Edge)
    (_hnodup : (nodeIds nodes).Nodup)
    (hvalid : ∀ e ∈ edges, e.source ∈ nodeIds nodes ∧ e.target ∈ nodeIds nodes)
    (adj : AList (List String))
    (hadj : ∀ x ∈ nodeIds nodes, alGet adj x = some (outNbrs edges x)) :
    ∀ (fuel : Nat) (indeg : AList JNum) (queue order : List String),
    KahnInv nodes edges indeg queue order →
    (nodeIds nodes).length ≤ fuel + order.length →
    (kahnLoop fuel indeg adj queue order).Nodup ∧
    (∀ x ∈ kahnLoop fuel indeg adj queue order, x ∈ nodeIds nodes) ∧
    (∀ x ∈ nodeIds nodes, (x ∈ kahnLoop fuel indeg adj queue order ↔
       ∀ e ∈ edges, e.target = x → e.source ∈ kahnLoop fuel indeg adj queue order)) ∧
    (∀ e ∈ edges, ∀ pre suf,
       kahnLoop fuel indeg adj queue order = pre ++ e.target :: suf → e.source ∈ pre) := by
  intro fuel
  induction fuel with
  | zero =>
      intro indeg queue order hinv hfuel
      have hqe : queue = [] := by
        by_contra hne
        have hlen := nodup_subset_length_le (order ++ queue) (nodeIds nodes)
          hinv.nodup hinv.subIds
        rw [List.length_append] at hlen
        have h1 : 1 ≤ queue.length := by
          cases queue with
          | nil => exact absurd rfl hne
          | cons a b => simp
        omega
      subst hqe
      have heq : kahnLoop 0 indeg adj [] order = order := rfl
      rw [heq]
      exact kahn_end nodes edges indeg order hinv
  | succ m ih =>
      intro indeg queue order hinv hfuel
      cases queue with
      | nil =>
          have heq : kahnLoop (m + 1) indeg adj [] order = order := rfl
          rw [heq]
          exact kahn_end nodes edges indeg order hinv
      | cons current rest =>
          have hcur_ids : current ∈ nodeIds nodes := hinv.subIds current (by simp)
          have hstep := kahn_step nodes edges hvalid indeg current rest order hinv
          have hkl : kahnLoop (m + 1) indeg adj (current :: rest) order =
              kahnLoop m (processNeighbors (outNbrs edges current) indeg rest).1 adj
                (processNeighbors (outNbrs edges current) indeg rest).2
                (order ++ [current]) := by
            show kahnLoop m
                (processNeighbors ((alGet adj current).getD []) indeg rest).1 adj
                (processNeighbors ((alGet adj current).getD []) indeg rest).2
                (order ++ [current]) = _
            rw [hadj current hcur_ids]
            rfl
          rw [hkl]
          refine ih _ _ _ hstep ?_
          rw [List.length_append]
          simp only [List.length_singleton]
          omega

/-! ## Build-phase characterization -/

lemma initMaps_go :
    ∀ (nodes : List Node) (m1 : AList JNum) (m2 : AList (List String)) (x : String),
    alGet (nodes.foldl (fun st n => (alSet st.1 n.id (some 0), alSet st.2 n.id []))
        (m1, m2)).1 x = (if x ∈ nodeIds nodes then some (some 0) else alGet m1 x) ∧
    alGet (nodes.foldl (fun st n => (alSet st.1 n.id (some 0), alSet st.2 n.id []))
        (m1, m2)).2 x = (if x ∈ nodeIds nodes then some [] else alGet m2 x) := by
  intro nodes
  induction nodes with
  | nil => intro m1 m2 x; simp [nodeIds]
  | cons n rest ih =>
      intro m1 m2 x
      rw [List.foldl_cons]
      obtain ⟨ih1, ih2⟩ := ih (alSet m1 n.id (some 0)) (alSet m2 n.id []) x
      have hmem : x ∈ nodeIds (n :: rest) ↔ x = n.id ∨ x ∈ nodeIds rest := by
        simp [nodeIds]
      constructor
      · rw [ih1]
        by_cases hr : x ∈ nodeIds rest
        · rw [if_pos hr, if_pos (hmem.mpr (Or.inr hr))]
        · by_cases hn : x = n.id
          · rw [if_neg hr, ← hn, alGet_alSet_self, if_pos (hmem.mpr (Or.inl hn))]
          · rw [if_neg hr, alGet_alSet_ne m1 _ (fun h => hn h.symm),
              if_neg (fun h => by rcases hmem.mp h with h | h <;> [exact hn h; exact hr h])]
      · rw [ih2]
        by_cases hr : x ∈ nodeIds rest
        · rw [if_pos hr, if_pos (hmem.mpr (Or.inr hr))]
        · by_cases hn : x = n.id
          · rw [if_neg hr, ← hn, alGet_alSet_self, if_pos (hmem.mpr (Or.inl hn))]
          · rw [if_neg hr, alGet_alSet_ne m2 _ (fun h => hn h.symm),
              if_neg (fun h => by rcases hmem.mp h with h | h <;> [exact hn h; exact hr h])]

lemma initMaps_keys_go :
    ∀ (nodes : List Node) (m1 : AList JNum) (m2 : AList (List String)),
    (∀ i ∈ nodeIds nodes, i ∉ alKeys m1) → (nodeIds nodes).Nodup →
    alKeys (nodes.foldl (fun st n => (alSet st.1 n.id (some 0), alSet st.2 n.id []))
        (m1, m2)).1 = alKeys m1 ++ nodeIds nodes := by
  intro nodes
  induction nodes with
  | nil => intro m1 m2 _ _; simp [nodeIds]
  | cons n rest ih =>
      intro m1 m2 hdisj hnd
      rw [List.foldl_cons]
      have hn_not : n.id ∉ alKeys m1 := hdisj n.id (by simp [nodeIds])
      have hkeys1 : alKeys (alSet m1 n.id (some 0)) = alKeys m1 ++ [n.id] :=
        alKeys_alSet_of_not_mem m1 _ hn_not
      have hnd2 : (nodeIds (n :: rest)).Nodup = (n.id :: nodeIds rest).Nodup := by
        simp [nodeIds]
      have hndr : (nodeIds rest).Nodup := (List.nodup_cons.mp (hnd2 ▸ hnd)).2
      have hnid : n.id ∉ nodeIds rest := (List.nodup_cons.mp (hnd2 ▸ hnd)).1
      have hdisj2 : ∀ i ∈ nodeIds rest, i ∉ alKeys (alSet m1 n.id (some 0)) := by
        intro i hi
        rw [hkeys1]
        intro hcon
        have hi2 : i ∈ nodeIds (n :: rest) := by
          show i ∈ n.id :: nodeIds rest
          exact List.mem_cons_of_mem _ hi
        rcases List.mem_append.mp hcon with h | h
        · exact hdisj i hi2 h
        · exact hnid ((List.mem_singleton.mp h) ▸ hi)
      rw [ih (alSet m1 n.id (some 0)) (alSet m2 n.id []) hdisj2 hndr, hkeys1]
      simp [nodeIds]

lemma addEdges_spec :
    ∀ (es : List Edge) (m1 : AList JNum) (m2 : AList (List String)),
    (∀ e ∈ es, e.source ∈ alKeys m2) →
    (∀ e ∈ es, e.target ∈ alKeys m1) →
    ∃ m1f m2f, addEdges es (m1, m2) = .ok (m1f, m2f) ∧
      alKeys m1f = alKeys m1 ∧
      (∀ x (k : Int), alGet m1 x = some (some k) →
        alGet m1f x = some (some (k + ((es.filter (fun e => e.target == x)).length : Int)))) ∧
      (∀ x lst, alGet m2 x = some lst → alGet m2f x = some (lst ++ outNbrs es x)) ∧
      (∀ x, alGet m2 x = none → alGet m2f x = none) := by
  intro es
  induction es with
  | nil =>
      intro m1 m2 _ _
      refine ⟨m1, m2, rfl, rfl, ?_, ?_, fun x h => h⟩
      · intro x k h
        simpa using h
      · intro x lst h
        simpa [outNbrs] using h
  | cons e rest ih =>
      intro m1 m2 hsrc htgt
      have hes : e.source ∈ alKeys m2 := hsrc e (by simp)
      obtain ⟨lst0, hlst0⟩ : ∃ lst, alGet m2 e.source = some lst :=
        Option.isSome_iff_exists.mp ((alGet_isSome_iff m2 e.source).mpr hes)
      have hred : addEdges (e :: rest) (m1, m2) =
          addEdges rest (alIncr m1 e.target, alSet m2 e.source (lst0 ++ [e.target])) := by
        show (match alGet m2 e.source with
          | none => Except.error "Cannot read properties of undefined (reading push)"
          | some lst =>
              addEdges rest (alIncr m1 e.target, alSet m2 e.source (lst ++ [e.target]))) = _
        rw [hlst0]
      have het : e.target ∈ alKeys m1 := htgt e (by simp)
      have hkeys_m1h : alKeys (alIncr m1 e.target) = alKeys m1 := alKeys_alIncr_of_mem m1 het
      have hkeys_m2h : alKeys (alSet m2 e.source (lst0 ++ [e.target])) = alKeys m2 :=
        alKeys_alSet_of_mem m2 _ hes
      obtain ⟨m1f, m2f, hok, hkeys, hupd1, hupd2, hupd3⟩ :=
        ih (alIncr m1 e.target) (alSet m2 e.source (lst0 ++ [e.target]))
          (fun e2 he2 => hkeys_m2h ▸ hsrc e2 (List.mem_cons_of_mem e he2))
          (fun e2 he2 => hkeys_m1h ▸ htgt e2 (List.mem_cons_of_mem e he2))
      refine ⟨m1f, m2f, hred ▸ hok, hkeys.trans hkeys_m1h, ?_, ?_, ?_⟩
      · intro x k hk
        by_cases hx : x = e.target
        · subst hx
          have hinc : alGet (alIncr m1 e.target) e.target = some (some (k + 1)) := by
            rw [alGet_alIncr_self, hk]
            rfl
          rw [hupd1 e.target (k + 1) hinc, List.filter_cons,
            if_pos (show ((fun e2 => e2.target == e.target) e = true) by simp),
            List.length_cons]
          congr 2
          push_cast
          ring
        · have hne : alGet (alIncr m1 e.target) x = alGet m1 x :=
            alGet_alIncr_ne m1 (fun h => hx h.symm)
          rw [hupd1 x k (hne ▸ hk), List.filter_cons,
            if_neg (show ¬((fun e2 => e2.target == x) e = true) by
              simp
              exact fun h => hx h.symm)]
      · intro x lst hlst
        by_cases hx : x = e.source
        · subst hx
          have hll : lst = lst0 := by
            rw [hlst0] at hlst
            exact (Option.some.inj hlst).symm
          subst hll
          have hset : alGet (alSet m2 e.source (lst ++ [e.target])) e.source
              = some (lst ++ [e.target]) := alGet_alSet_self m2 e.source _
          rw [hupd2 e.source (lst ++ [e.target]) hset]
          have hout : outNbrs (e :: rest) e.source = e.target :: outNbrs rest e.source := by
            unfold outNbrs
            rw [List.filter_cons,
              if_pos (show ((fun e2 => e2.source == e.source) e = true) by simp)]
            rfl
          rw [hout, List.append_assoc]
          rfl
        · have hne : alGet (alSet m2 e.source (lst0 ++ [e.target])) x = alGet m2 x :=
            alGet_alSet_ne m2 _ (fun h => hx h.symm)
          rw [hupd2 x lst (hne ▸ hlst)]
          have hout : outNbrs (e :: rest) x = outNbrs rest x := by
            unfold outNbrs
            rw [List.filter_cons,
              if_neg (show ¬((fun e2 => e2.source == x) e = true) by
                simp
                exact fun h => hx h.symm)]
          rw [hout]
      · intro x hnone
        have hx : x ≠ e.source := by
          intro h
          rw [h, hlst0] at hnone
          exact Option.noConfusion hnone
        exact hupd3 x ((alGet_alSet_ne m2 _ (fun h => hx h.symm)) ▸ hnone)

/-- Full characterization of `buildExecutionOrder` on graphs with distinct
node ids and edges referencing existing nodes: it succeeds, its output is
duplicate-free, contains only node ids, contains a node exactly when all
sources of its incoming edges are in the output, and lists every edge's
source before its target. -/
lemma buildOrder_spec (nodes : List Node) (edges : List Edge)
    (hnodup : (nodeIds nodes).Nodup)
    (hvalid : ∀ e ∈ edges, e.source ∈ nodeIds nodes ∧ e.target ∈ nodeIds nodes) :
    ∃ final, buildExecutionOrder nodes edges = .ok final ∧ final.Nodup ∧
      (∀ x ∈ final, x ∈ nodeIds nodes) ∧
      (∀ x ∈ nodeIds nodes, (x ∈ final ↔ ∀ e ∈ edges, e.target = x → e.source ∈ final)) ∧
      (∀ e ∈ edges, ∀ pre suf, final = pre ++ e.target :: suf → e.source ∈ pre) := by
  have hinit1 : ∀ x, alGet (initMaps nodes).1 x =
      (if x ∈ nodeIds nodes then some (some 0) else none) := by
    intro x
    have h := (initMaps_go nodes [] [] x).1
    simpa [initMaps, alGet] using h
  have hinit2 : ∀ x, alGet (initMaps nodes).2 x =
      (if x ∈ nodeIds nodes then some [] else none) := by
    intro x
    have h := (initMaps_go nodes [] [] x).2
    simpa [initMaps, alGet] using h
  have hkeys_init : alKeys (initMaps nodes).1 = nodeIds nodes := by
    have h := initMaps_keys_go nodes [] [] (by intro i _; simp [alKeys]) hnodup
    simpa [initMaps, alKeys] using h
  have hsrc : ∀ e ∈ edges, e.source ∈ alKeys (initMaps nodes).2 := by
    intro e he
    rw [← alGet_isSome_iff, hinit2 e.source]
    simp [(hvalid e he).1]
  have htgt : ∀ e ∈ edges, e.target ∈ alKeys (initMaps nodes).1 := by
    intro e he
    rw [← alGet_isSome_iff, hinit1 e.target]
    simp [(hvalid e he).2]
  obtain ⟨m1f, m2f, hok, hkeys, hupd1, hupd2, hupd3⟩ :=
    addEdges_spec edges (initMaps nodes).1 (initMaps nodes).2 hsrc htgt
  have hok2 : addEdges edges (initMaps nodes) = .ok (m1f, m2f) := hok
  have hindeg : ∀ x ∈ nodeIds nodes,
      alGet m1f x = some (some ((remIn edges [] x : Nat) : Int)) := by
    intro x hx
    have h0 : alGet (initMaps nodes).1 x = some (some 0) := by
      rw [hinit1 x]
      simp [hx]
    rw [hupd1 x 0 h0, remIn_nil_eq]
    congr 2
    omega
  have hkeysf : alKeys m1f = nodeIds nodes := hkeys.trans hkeys_init
  have hphanf : ∀ x, x ∉ nodeIds nodes → alGet m1f x = none := by
    intro x hx
    rw [alGet_eq_none_iff, hkeysf]
    exact hx
  have hadjf : ∀ x ∈ nodeIds nodes, alGet m2f x = some (outNbrs edges x) := by
    intro x hx
    have h0 : alGet (initMaps nodes).2 x = some [] := by
      rw [hinit2 x]
      simp [hx]
    have h := hupd2 x [] h0
    simpa using h
  have hbuild : buildExecutionOrder nodes edges =
      .ok (kahnLoop (nodes.length + edges.length) m1f m2f
        ((alKeys m1f).filter (fun k => alGet m1f k = some (some 0))) []) := by
    show (match addEdges edges (initMaps nodes) with
      | Except.error msg => Except.error msg
      | Except.ok st => Except.ok (kahnLoop (nodes.length + edges.length) st.1 st.2
          ((alKeys st.1).filter (fun k => alGet st.1 k = some (some 0))) [])) = _
    rw [hok2]
  have hqmem : ∀ x, x ∈ (alKeys m1f).filter (fun k => alGet m1f k = some (some 0)) ↔
      x ∈ nodeIds nodes ∧ remIn edges [] x = 0 := by
    intro x
    rw [List.mem_filter, hkeysf]
    constructor
    · rintro ⟨h1, h2⟩
      rw [decide_eq_true_eq] at h2
      refine ⟨h1, ?_⟩
      rw [hindeg x h1] at h2
      have := Option.some.inj (Option.some.inj h2)
      omega
    · rintro ⟨h1, h2⟩
      refine ⟨h1, ?_⟩
      rw [decide_eq_true_eq, hindeg x h1, h2]
      rfl
  have hinv0 : KahnInv nodes edges m1f
      ((alKeys m1f).filter (fun k => alGet m1f k = some (some 0))) [] := by
    refine ⟨?_, ?_, hindeg, hphanf, ?_, ?_⟩
    · simp only [List.nil_append]
      exact (hkeysf ▸ hnodup).filter _
    · intro x hx
      simp only [List.nil_append] at hx
      exact ((hqmem x).mp hx).1
    · intro x hx
      constructor
      · intro h
        rcases h with h | h
        · exact absurd h (List.not_mem_nil x)
        · exact (remIn_eq_zero_iff edges [] x).mp ((hqmem x).mp h).2
      · intro h
        right
        rw [hqmem x]
        exact ⟨hx, (remIn_eq_zero_iff edges [] x).mpr h⟩
    · intro e he pre suf h
      exact absurd h (by cases pre <;> simp)
  obtain ⟨hnd, hsub, hclos, hprec⟩ := kahn_master nodes edges hnodup hvalid m2f hadjf
    (nodes.length + edges.length) m1f _ [] hinv0
    (by simp only [nodeIds, List.length_map, List.length_nil]; omega)
  exact ⟨_, hbuild, hnd, hsub, hclos, hprec⟩

/-! ## Path and cycle lemmas -/

lemma rp_inv (edges : List Edge) (a b : String) (h : ReachesPlus edges a b) :
    (Edge.mk a b ∈ edges) ∨ ∃ m, Edge.mk a m ∈ edges ∧ ReachesPlus edges m b := by
  cases h with
  | single _ _ he => exact Or.inl he
  | cons _ m _ he hrp => exact Or.inr ⟨m, he, hrp⟩

lemma rp_first_edge (edges : List Edge) (a b : String) (h : ReachesPlus edges a b) :
    ∃ e ∈ edges, e.source = a := by
  rcases rp_inv edges a b h with he | ⟨m, he, _⟩
  · exact ⟨_, he, rfl⟩
  · exact ⟨_, he, rfl⟩

lemma rp_rank_lt (edges : List Edge) (rank : String → Nat)
    (hrank : ∀ e ∈ edges, rank e.source < rank e.target) :
    ∀ a b, ReachesPlus edges a b → rank a < rank b := by
  intro a b h
  induction h with
  | single a b he => exact hrank _ he
  | cons a b c he _ ih => exact lt_trans (hrank _ he) ih

/-- A graph admitting a strictly edge-increasing ranking has no cycle. -/
lemma acyclic_of_rank (edges : List Edge) (rank : String → Nat)
    (hrank : ∀ e ∈ edges, rank e.source < rank e.target) :
    ∀ v, ¬ReachesPlus edges v v :=
  fun v h => lt_irrefl _ (rp_rank_lt edges rank hrank v v h)

lemma indexOf_of_decomp :
    ∀ (pre : List String) (x : String) (suf : List String), x ∉ pre →
    (pre ++ x :: suf).indexOf x = pre.length := by
  intro pre
  induction pre with
  | nil => intro x suf _; simp
  | cons p pre2 ih =>
      intro x suf hx
      have hpx : p ≠ x := fun h => hx (h ▸ List.mem_cons_self p pre2)
      rw [List.cons_append, List.indexOf_cons_ne _ hpx,
        ih x suf (fun h => hx (List.mem_cons_of_mem p h))]
      rfl

lemma indexOf_lt_of_mem_prefix :
    ∀ (pre rest : List String) (a : String), a ∈ pre →
    (pre ++ rest).indexOf a < pre.length := by
  intro pre
  induction pre with
  | nil => intro rest a ha; exact absurd ha (List.not_mem_nil a)
  | cons p pre2 ih =>
      intro rest a ha
      by_cases hpa : p = a
      · subst hpa
        simp
      · rcases List.mem_cons.mp ha with h | h
        · exact absurd h.symm hpa
        · rw [List.cons_append, List.indexOf_cons_ne _ hpa]
          have := ih rest a h
          simp only [List.length_cons]
          omega

lemma edge_lt_in_final (final : List String) (edges : List Edge) (hnd : final.Nodup)
    (hprec : ∀ e ∈ edges, ∀ pre suf, final = pre ++ e.target :: suf → e.source ∈ pre)
    (e : Edge) (he : e ∈ edges) (hb : e.target ∈ final) :
    e.source ∈ final ∧ final.indexOf e.source < final.indexOf e.target := by
  obtain ⟨pre, suf, hdecomp⟩ := List.append_of_mem hb
  have hsrc := hprec e he pre suf hdecomp
  have htnp : e.target ∉ pre := by
    intro hcon
    rw [hdecomp] at hnd
    exact (List.nodup_append.mp hnd).2.2 hcon (List.mem_cons_self _ _)
  constructor
  · rw [hdecomp]
    exact List.mem_append_left _ hsrc
  · rw [hdecomp, indexOf_of_decomp pre e.target suf htnp]
    have h2 : (pre ++ e.target :: suf).indexOf e.source < pre.length :=
      indexOf_lt_of_mem_prefix pre (e.target :: suf) e.source hsrc
    exact h2

lemma rp_lt_in_final (final : List String) (edges : List Edge) (hnd : final.Nodup)
    (hprec : ∀ e ∈ edges, ∀ pre suf, final = pre ++ e.target :: suf → e.source ∈ pre) :
    ∀ a b, ReachesPlus edges a b → b ∈ final →
      a ∈ final ∧ final.indexOf a < final.indexOf b := by
  intro a b h
  induction h with
  | single a b he =>
      intro hb
      exact edge_lt_in_final final edges hnd hprec ⟨a, b⟩ he hb
  | cons a b c he _ ih =>
      intro hc
      obtain ⟨hbf, hlt1⟩ := ih hc
      obtain ⟨haf, hlt2⟩ := edge_lt_in_final final edges hnd hprec ⟨a, b⟩ he hbf
      exact ⟨haf, lt_trans hlt2 hlt1⟩

/-- Nodes that the end-state closure leaves outside the output have an
incoming edge from another outside node. -/
lemma stuck_of_closure (edges : List Edge) (ids final : List String)
    (hclos : ∀ x ∈ ids, (x ∈ final ↔ ∀ e ∈ edges, e.target = x → e.source ∈ final)) :
    ∀ y ∈ ids, y ∉ final → ∃ e ∈ edges, e.target = y ∧ e.source ∉ final := by
  intro y hy hyf
  by_contra hcon
  push_neg at hcon
  exact hyf ((hclos y hy).mpr hcon)

/-- Backward-walk pigeonhole: a node that can always be blamed on another
outside node has an ancestor lying on a cycle. -/
lemma cycle_ancestor_of_stuck (edges : List Edge) (ids : List String)
    (hvalid : ∀ e ∈ edges, e.source ∈ ids) (F : List String)
    (hstuck : ∀ y ∈ ids, y ∉ F → ∃ e ∈ edges, e.target = y ∧ e.source ∉ F)
    (x : String) (hx : x ∈ ids) (hxF : x ∉ F) :
    ∃ v, ReachesPlus edges v v ∧ Reaches edges v x := by
  classical
  have step : ∀ s : {y : String // y ∈ ids ∧ y ∉ F},
      ∃ t : {y : String // y ∈ ids ∧ y ∉ F}, Edge.mk t.1 s.1 ∈ edges := by
    rintro ⟨y, hy1, hy2⟩
    obtain ⟨e, he, ht, hs⟩ := hstuck y hy1 hy2
    refine ⟨⟨e.source, hvalid e he, hs⟩, ?_⟩
    show Edge.mk e.source y ∈ edges
    rw [← ht]
    exact he
  let g : Nat → {y : String // y ∈ ids ∧ y ∉ F} := fun n =>
    Nat.rec ⟨x, hx, hxF⟩ (fun _ prev => Classical.choose (step prev)) n
  have hedge : ∀ n, Edge.mk (g (n + 1)).1 (g n).1 ∈ edges :=
    fun n => Classical.choose_spec (step (g n))
  have hwalk : ∀ m d, ReachesPlus edges (g (m + d + 1)).1 (g m).1 := by
    intro m d
    induction d with
    | zero => exact .single _ _ (hedge m)
    | succ d2 ih => exact .cons _ _ _ (hedge (m + d2 + 1)) ih
  obtain ⟨i, _, j, _, hij, heq⟩ :=
    Finset.exists_ne_map_eq_of_card_lt_of_maps_to
      (show ids.toFinset.card < (Finset.univ : Finset (Fin (ids.length + 1))).card by
        rw [Finset.card_univ, Fintype.card_fin]
        exact lt_of_le_of_lt ids.toFinset_card_le (Nat.lt_succ_self _))
      (fun (i : Fin (ids.length + 1)) _ => List.mem_toFinset.mpr (g i.1).2.1)
  -- normalize to m < n with (g m).1 = (g n).1
  have hmain : ∀ m n : Nat, m < n → (g m).1 = (g n).1 →
      ∃ v, ReachesPlus edges v v ∧ Reaches edges v x := by
    intro m n hmn hg
    have hd : n = m + (n - m - 1) + 1 := by omega
    have hcyc : ReachesPlus edges (g n).1 (g m).1 := by
      have h := hwalk m (n - m - 1)
      rw [← hd] at h
      exact h
    rw [← hg] at hcyc
    refine ⟨(g m).1, hcyc, ?_⟩
    rcases Nat.eq_zero_or_pos m with hm0 | hmpos
    · subst hm0
      exact Or.inl rfl
    · have hd2 : m = 0 + (m - 1) + 1 := by omega
      have h := hwalk 0 (m - 1)
      rw [← hd2] at h
      exact Or.inr h
  rcases Nat.lt_or_ge i.1 j.1 with h | h
  · exact hmain i.1 j.1 h heq
  · have hlt : j.1 < i.1 := by
      rcases Nat.lt_or_ge j.1 i.1 with h2 | h2
      · exact h2
      · exact absurd (Fin.ext (le_antisymm h2 h)) hij
    exact hmain j.1 i.1 hlt heq.symm

/-! ## Claim C2 -/

/-- C2: for every acyclic graph of N nodes with distinct ids whose edges
reference existing nodes, `buildExecutionOrder` returns an order containing
each node id exactly once (length N) such that for every edge the source
appears strictly before the target. -/
theorem c2_topological_order :
    ∀ (nodes : List Node) (edges : List Edge),
    (nodeIds nodes).Nodup →
    (∀ e ∈ edges, e.source ∈ nodeIds nodes ∧ e.target ∈ nodeIds nodes) →
    (∀ v, ¬ReachesPlus edges v v) →
    ∃ order, buildExecutionOrder nodes edges = .ok order ∧
      order.length = nodes.length ∧
      (∀ n ∈ nodes, order.count n.id = 1) ∧
      (∀ e ∈ edges, ∀ pre suf, order = pre ++ e.target :: suf → e.source ∈ pre) := by
  intro nodes edges hnodup hvalid hacyc
  obtain ⟨final, hbuild, hnd, hsub, hclos, hprec⟩ := buildOrder_spec nodes edges hnodup hvalid
  have hall : ∀ x ∈ nodeIds nodes, x ∈ final := by
    by_contra hcon
    push_neg at hcon
    obtain ⟨x, hx, hxf⟩ := hcon
    obtain ⟨v, hvv, _⟩ := cycle_ancestor_of_stuck edges (nodeIds nodes)
      (fun e he => (hvalid e he).1) final
      (stuck_of_closure edges (nodeIds nodes) final hclos) x hx hxf
    exact hacyc v hvv
  have hlen : final.length = nodes.length := by
    have h1 := nodup_subset_length_le final (nodeIds nodes) hnd hsub
    have h2 := nodup_subset_length_le (nodeIds nodes) final hnodup hall
    have h3 : (nodeIds nodes).length = nodes.length := by simp [nodeIds]
    omega
  refine ⟨final, hbuild, hlen, ?_, hprec⟩
  intro n hn
  have hmem : n.id ∈ final := hall n.id (List.mem_map_of_mem _ hn)
  have hle := List.nodup_iff_count_le_one.mp hnd n.id
  have hge : 0 < final.count n.id := List.count_pos_iff.mpr hmem
  omega

/-- Witness for C2 at the three-node chain `a -> b -> c`, whose acyclicity
is witnessed by an edge-increasing ranking. -/
theorem c2_witness :
    ∃ order, buildExecutionOrder chainNodes chainEdges = .ok order ∧
      order.length = chainNodes.length ∧
      (∀ n ∈ chainNodes, order.count n.id = 1) ∧
      (∀ e ∈ chainEdges, ∀ pre suf, order = pre ++ e.target :: suf → e.source ∈ pre) :=
  c2_topological_order chainNodes chainEdges (by decide) (by decide)
    (acyclic_of_rank chainEdges chainRank (by decide))

/-! ## Claim C3 (corrected) -/

/-- C3 counterexample: in the graph with cycle `a <-> b`, clean node `c` and
node `d` fed both by the cycle member `a` and by the clean node `c`, the
returned order is `["c"]`: the node `d` is omitted although it does not lie
on a cycle and is reachable through the non-cycle node `c` (so it is not
reachable only through cycle members), and no error is raised. -/
theorem c3_counterexample :
    buildExecutionOrder cexNodes cexEdges = .ok ["c"] ∧
    Edge.mk "c" "d" ∈ cexEdges ∧
    ¬ReachesPlus cexEdges "d" "d" ∧
    ¬ReachesPlus cexEdges "c" "c" ∧
    "d" ∉ (["c"] : List String) := by
  have hnod : ∀ e ∈ cexEdges, e.source ≠ "d" := by decide
  have hd : ¬ReachesPlus cexEdges "d" "d" := by
    intro h
    obtain ⟨e, he, hs⟩ := rp_first_edge cexEdges "d" "d" h
    exact hnod e he hs
  have hc : ¬ReachesPlus cexEdges "c" "c" := by
    intro h
    rcases rp_inv cexEdges "c" "c" h with he | ⟨m, he, hrp⟩
    · exact absurd he (by decide)
    · have hm : m = "d" := by
        have h2 : ∀ e ∈ cexEdges, e.source = "c" → e.target = "d" := by decide
        exact h2 _ he rfl
      subst hm
      obtain ⟨e, he2, hs⟩ := rp_first_edge cexEdges "d" "c" hrp
      exact hnod e he2 hs
  exact ⟨rfl, by decide, hd, hc, by decide⟩

/-- C3 as amended: for every graph with distinct node ids whose edges
reference existing nodes (and containing a cycle), `buildExecutionOrder`
raises no error and returns the order consisting exactly of the nodes not
reachable from any cycle — so it omits every node with a cycle among its
ancestors, including nodes that also have cycle-free incoming paths — and
the runner executes (logs) only node ids present in the order. -/
theorem c3_cycle_omission :
    ∀ (nodes : List Node) (edges : List Edge) (fid fname testInput : String)
      (oracle : FetchOracle),
    (nodeIds nodes).Nodup →
    (∀ e ∈ edges, e.source ∈ nodeIds nodes ∧ e.target ∈ nodeIds nodes) →
    (∃ v, ReachesPlus edges v v) →
    ∃ order, buildExecutionOrder nodes edges = .ok order ∧
      (∀ x, x ∈ order ↔ x ∈ nodeIds nodes ∧
        ¬∃ v, ReachesPlus edges v v ∧ Reaches edges v x) ∧
      (∀ l ∈ (executeFramework ⟨fid, fname, nodes, edges⟩ testInput oracle).logs,
        l.nodeId ∈ order) := by
  intro nodes edges fid fname tIn oracle hnodup hvalid _hcyc
  obtain ⟨final, hbuild, hnd, hsub, hclos, hprec⟩ := buildOrder_spec nodes edges hnodup hvalid
  refine ⟨final, hbuild, ?_, ?_⟩
  · intro x
    constructor
    · intro hxf
      refine ⟨hsub x hxf, ?_⟩
      rintro ⟨v, hvv, hvx⟩
      have hvf : v ∈ final := by
        rcases hvx with rfl | hrp
        · exact hxf
        · exact (rp_lt_in_final final edges hnd hprec v x hrp hxf).1
      exact lt_irrefl _ (rp_lt_in_final final edges hnd hprec v v hvv hvf).2
    · rintro ⟨hx, hnoc⟩
      by_contra hxf
      obtain ⟨v, hvv, hvx⟩ := cycle_ancestor_of_stuck edges (nodeIds nodes)
        (fun e he => (hvalid e he).1) final
        (stuck_of_closure edges (nodeIds nodes) final hclos) x hx hxf
      exact hnoc ⟨v, hvv, hvx⟩
  · intro l hl
    obtain ⟨delta, hdelta, hmem⟩ := runLoop_logs_extend nodes (buildEdgesByTarget edges)
      tIn oracle final initialRunState
    have h2 : (executeFramework ⟨fid, fname, nodes, edges⟩ tIn oracle).logs =
        (final.foldl (runStep nodes (buildEdgesByTarget edges) tIn oracle)
          initialRunState).logs := by
      simp [executeFramework, hbuild]
    rw [h2, hdelta] at hl
    simp only [initialRunState, List.nil_append] at hl
    exact hmem l hl

/-- Witness for C3 at the graph with the two-node cycle `a <-> b` plus the
isolated node `c`. -/
theorem c3_witness :
    ∃ order, buildExecutionOrder cycNodes cycEdges = .ok order ∧
      (∀ x, x ∈ order ↔ x ∈ nodeIds cycNodes ∧
        ¬∃ v, ReachesPlus cycEdges v v ∧ Reaches cycEdges v x) ∧
      (∀ l ∈ (executeFramework ⟨"f", "f", cycNodes, cycEdges⟩ "t" oracleW).logs,
        l.nodeId ∈ order) :=
  c3_cycle_omission cycNodes cycEdges "f" "f" "t" oracleW (by decide) (by decide)
    ⟨"a", .cons "a" "b" "a" (by decide) (.single "b" "a" (by decide))⟩

/-- Witness for C6 at the concrete label-before-type framework. -/
theorem c6_witness :
    (executeFramework fwLabelFirst "T" oracleW).output =
      jsOrStr
        (match fwLabelFirst.nodes.find? outputNodePred with
         | some n => alGet (executeFramework fwLabelFirst "T" oracleW).nodeOutputs n.id
         | none =>
             match (["n1", "n2"] : List String).getLast? with
             | some lastId => alGet (executeFramework fwLabelFirst "T" oracleW).nodeOutputs lastId
             | none => none) "" :=
  c6_output_selection fwLabelFirst "T" oracleW ["n1", "n2"] rfl

end AAB
